import Mathlib

/-!
Verification of the PCP-Group-2 supplier cyber-risk dashboard core:
shallow embedding of the control-reference normalizer
(utils/normalization.py, duplicated in charts/charts_helpers.py),
the shape-tolerant numeric extractor (helpers.py, utils/dataframe_utils.py),
the CSF function-code lookup (nist/nist_helpers.py, helpers.py),
the HTTP client retry wrapper (api.py), and the bundle builder
(json_handler.py), together with theorems settling the spec claims.

Python strings are modelled as Lean `String`/`List Char`; the string
primitives below (upper, strip, isdigit, zfill, split, replace) follow
Python semantics on the ASCII range.
-/

namespace PCP

/-- ASCII model of Python str.upper applied to one character:
lowercase ASCII letters map to uppercase; everything else is unchanged. -/
def upChar (c : Char) : Char :=
  if 97 ≤ c.toNat ∧ c.toNat ≤ 122 then Char.ofNat (c.toNat - 32) else c

/-- Python s.upper() over the character list. -/
def upper (l : List Char) : List Char := l.map upChar

/-- Python s.lstrip(): drop leading whitespace. -/
def lstrip (l : List Char) : List Char := l.dropWhile Char.isWhitespace

/-- Python s.rstrip(): drop trailing whitespace. -/
def rstrip (l : List Char) : List Char :=
  (l.reverse.dropWhile Char.isWhitespace).reverse

/-- Python s.strip(). -/
def strip (l : List Char) : List Char := rstrip (lstrip l)

/-- Python s.replace(a, b) for single characters. -/
def replaceChar (a b : Char) (l : List Char) : List Char :=
  l.map fun c => if c = a then b else c

/-- The two replace passes `.replace("_", ".").replace("-", ".")`
used by norm_ref and prefix. -/
def dotify (l : List Char) : List Char :=
  replaceChar '-' '.' (replaceChar '_' '.' l)

/-- One pass of Python s.replace("..", "."): leftmost-first,
non-overlapping replacement of two consecutive dots by one. -/
def replaceDD : List Char → List Char
  | [] => []
  | [c] => [c]
  | c1 :: c2 :: rest =>
    if c1 = '.' ∧ c2 = '.' then '.' :: replaceDD rest
    else c1 :: replaceDD (c2 :: rest)

/-- Whether the list contains two consecutive dots (Python `".." in s`). -/
def hasDD : List Char → Bool
  | [] => false
  | [_] => false
  | c1 :: c2 :: rest => (decide (c1 = '.') && decide (c2 = '.')) || hasDD (c2 :: rest)

/-- The Python loop `while ".." in s: s = s.replace("..", ".")`,
run with explicit fuel; each iteration with ".." present strictly
shortens the list, so `l.length` fuel always reaches the fixpoint. -/
def collapseLoop : Nat → List Char → List Char
  | 0, l => l
  | n + 1, l => if hasDD l then collapseLoop n (replaceDD l) else l

/-- The dot-collapsing while-loop of norm_ref / prefix. -/
def collapse (l : List Char) : List Char := collapseLoop l.length l

/-- Python tail.isdigit(): nonempty and all ASCII digits. -/
def pyIsDigit (l : List Char) : Bool := !l.isEmpty && l.all Char.isDigit

/-- Python tail.zfill(2): left-pad with '0' to length two. -/
def zfill2 (l : List Char) : List Char :=
  if 2 ≤ l.length then l else List.replicate (2 - l.length) '0' ++ l

/-- Python s.split(".") over a character list. -/
def splitDots : List Char → List (List Char)
  | [] => [[]]
  | c :: rest =>
    if c = '.' then [] :: splitDots rest
    else
      match splitDots rest with
      | [] => [[c]]
      | seg :: segs => (c :: seg) :: segs

/-- Embedding of norm_ref from utils/normalization.py (the identical
function _norm_ref appears in charts/charts_helpers.py), working on
character lists.  Mirrors the source line by line: empty check, upper
and strip, the hyphen branch (split at the first hyphen, dotify and
collapse the prefix, strip the tail and zero-pad a purely numeric
tail), and the no-hyphen branch (dotify/collapse, split on dots,
reformat when the third nonempty segment is numeric, else return the
uppercased stripped input).  normBody is the part after the
reassignment s = str(s).upper().strip(); normRefL is the whole
function. -/
def normBody (s : List Char) : List Char :=
  if '-' ∈ s then
    let hd := collapse (dotify (s.takeWhile (· ≠ '-')))
    let tl := strip ((s.dropWhile (· ≠ '-')).tail)
    let tl := if pyIsDigit tl then zfill2 tl else tl
    hd ++ '-' :: tl
  else
    let s2 := collapse (dotify s)
    match (splitDots s2).filter (· ≠ []) with
    | p0 :: p1 :: p2 :: _ =>
      if pyIsDigit p2 then p0 ++ '.' :: p1 ++ '-' :: zfill2 p2 else s
    | _ => s

def normRefL (s0 : List Char) : List Char :=
  if s0 = [] then [] else normBody (strip (upper s0))

/-- norm_ref over Lean strings (utils/normalization.py,
charts/charts_helpers.py). -/
def norm_ref (s : String) : String := String.mk (normRefL s.data)

/-- The first character, if any, is not whitespace. -/
def noLeadWS : List Char → Prop
  | [] => True
  | c :: _ => c.isWhitespace = false

/-- The last character, if any, is not whitespace. -/
def noTrailWS (l : List Char) : Prop := noLeadWS l.reverse

/-- Every character is fixed by the ASCII uppercase map. -/
def upFixed (l : List Char) : Prop := ∀ c ∈ l, upChar c = c

/-- Embedding of prefix from utils/normalization.py (identical _prefix
in charts/charts_helpers.py); named prefixOf because Lean reserves the
source name. -/
def prefixOfL (x0 : List Char) : List Char :=
  if x0 = [] then []
  else
    let x := strip (upper x0)
    let x := if '-' ∈ x then x.takeWhile (· ≠ '-') else x
    let x := collapse (dotify x)
    match (splitDots x).filter (· ≠ []) with
    | p0 :: p1 :: _ => p0 ++ '.' :: p1
    | [p0] => p0
    | [] => []

/-- prefix over Lean strings. -/
def prefixOf (x : String) : String := String.mk (prefixOfL x.data)

/-! ### Python JSON-ish values -/

/-- Model of a Python value as handled by the repository: None, bool,
number (int and float collapsed into one rational-valued constructor),
string, list, dict (keys are strings, insertion-ordered). -/
inductive PyVal where
  | vnone : PyVal
  | vbool : Bool → PyVal
  | vnum : ℚ → PyVal
  | vstr : String → PyVal
  | vlist : List PyVal → PyVal
  | vdict : List (String × PyVal) → PyVal

/-- Python `x is None`. -/
def isNoneV : PyVal → Bool
  | .vnone => true
  | _ => false

/-- Python truthiness of a value. -/
def pyTruthy : PyVal → Bool
  | .vnone => false
  | .vbool b => b
  | .vnum q => decide (q ≠ 0)
  | .vstr s => decide (s ≠ "")
  | .vlist xs => !xs.isEmpty
  | .vdict kvs => !kvs.isEmpty

/-- Python `a or b`: the left operand when truthy, else the right. -/
def pyOr (a b : PyVal) : PyVal := if pyTruthy a then a else b

/-- Python d.get(k) on a dict (absent key yields None). -/
def pyGet (kvs : List (String × PyVal)) (k : String) : PyVal :=
  match kvs.find? (fun p => p.1 == k) with
  | some p => p.2
  | none => .vnone

/-- Digit-list value, e.g. ['4','2'] to 42. -/
def natVal (l : List Char) : ℕ := l.foldl (fun a c => 10 * a + (c.toNat - 48)) 0

/-- Model of Python float(str) on plain decimal literals: optional
surrounding whitespace, optional sign, digits with at most one dot and
at least one digit. Exponents / inf / nan are outside the repository's
data and are not modelled. -/
def parseFloatL (l0 : List Char) : Option ℚ :=
  let l1 := strip l0
  let neg : Bool := match l1 with
    | '-' :: _ => true
    | _ => false
  let l : List Char := match l1 with
    | '-' :: r => r
    | '+' :: r => r
    | _ => l1
  let ip := l.takeWhile Char.isDigit
  let mkNum : ℕ → ℕ → Option ℚ := fun n d =>
    some (mkRat (if neg then -(n : ℤ) else (n : ℤ)) d)
  match l.dropWhile Char.isDigit with
  | [] => if ip.isEmpty then none else mkNum (natVal ip) 1
  | '.' :: fr =>
    if (ip.isEmpty && fr.isEmpty) || !fr.all Char.isDigit then none
    else mkNum (natVal ip * 10 ^ fr.length + natVal fr) (10 ^ fr.length)
  | _ => none

/-- Python float(string). -/
def parseFloat (s : String) : Option ℚ := parseFloatL s.data

/-- Python float(x) on an arbitrary value: numbers pass through, bools
count as 0/1 (bool is an int subtype), strings are parsed, everything
else (None, list, dict) raises, modelled as none. -/
def pyFloat : PyVal → Option ℚ
  | .vnum q => some q
  | .vbool b => some (if b then 1 else 0)
  | .vstr s => parseFloat s
  | _ => none

/-! ### extract_number (helpers.py and utils/dataframe_utils.py,
identical definitions) -/

/-- The fixed ordered candidate-key list probed by extract_number. -/
def CANDIDATE_KEYS : List String :=
  ["domain_score", "score", "overall_score", "value", "avg", "overall",
   "category_gpa", "gpa", "total_gpa"]

/-- The dict loop of extract_number: for each key in order, try
float(x.get(k)) and return the first success. -/
def probeKeys (kvs : List (String × PyVal)) : List String → Option ℚ
  | [] => none
  | k :: ks =>
    match pyFloat (pyGet kvs k) with
    | some q => some q
    | none => probeKeys kvs ks

/-- Embedding of extract_number from helpers.py (the identical function
also appears in utils/dataframe_utils.py): None yields None, ints,
floats and bools convert directly, strings are parsed fail-soft, dicts
are probed over CANDIDATE_KEYS, anything else yields None. -/
def extract_number : PyVal → Option ℚ
  | .vnone => none
  | .vnum q => some q
  | .vbool b => some (if b then 1 else 0)
  | .vstr s => parseFloat s
  | .vdict kvs => probeKeys kvs CANDIDATE_KEYS
  | .vlist _ => none

/-! ### CSF function-code lookup -/

/-- The keys of CSF_L1_FUNCTION_FULL (nist/nist_mappings.py) in
insertion order; helpers.py uses the same six codes as a set literal. -/
def CSF_L1_CODES : List String := ["GV", "ID", "PR", "DE", "RS", "RC"]

/-- Python s.split(".", 1)[0] and s.split(".")[0]: the segment before
the first dot. -/
def headSeg (s : String) : String := String.mk (s.data.takeWhile (· ≠ '.'))

/-- Embedding of get_function_from_code_or_ref from
nist/nist_helpers.py: normalize the reference, then try in order the
pre-dot head, the pre-dot head of prefix(normalized), any code that is
a string prefix of the normalized reference, and finally fall back to
the pre-dot head itself. The source binds the intermediate values to
locals; here the pure calls are repeated instead. -/
def get_function_from_code_or_ref (ref : String) : String :=
  if norm_ref ref = "" then ""
  else if headSeg (norm_ref ref) ∈ CSF_L1_CODES then headSeg (norm_ref ref)
  else if (if prefixOf (norm_ref ref) = "" then ""
           else headSeg (prefixOf (norm_ref ref))) ∈ CSF_L1_CODES then
    (if prefixOf (norm_ref ref) = "" then ""
     else headSeg (prefixOf (norm_ref ref)))
  else
    match CSF_L1_CODES.find? (fun fn => fn.data.isPrefixOf (norm_ref ref).data) with
    | some fn => fn
    | none => headSeg (norm_ref ref)

/-- Embedding of get_function_from_code_or_ref from helpers.py: strip,
return the uppercased pre-dot head when it has length two, special-case
a GV. prefix, else the uppercased first two characters when they form a
known code, else the empty string. -/
def get_function_from_code_or_ref_helpers (s0 : String) : String :=
  if s0 = "" then ""
  else if '.' ∈ strip s0.data ∧ ((strip s0.data).takeWhile (· ≠ '.')).length = 2 then
    String.mk (upper ((strip s0.data).takeWhile (· ≠ '.')))
  else if ("GV.").data.isPrefixOf (upper (strip s0.data)) then "GV"
  else if String.mk (upper ((strip s0.data).take 2)) ∈ CSF_L1_CODES then
    String.mk (upper ((strip s0.data).take 2))
  else ""

/-! ### json_handler.py: transport stripping and the bundle builder -/

/-- ASCII model of Python str.lower applied to one character. -/
def lowChar (c : Char) : Char :=
  if 65 ≤ c.toNat ∧ c.toNat ≤ 90 then Char.ofNat (c.toNat + 32) else c

/-- Python str(k).lower() for dict keys. -/
def pyLowerS (s : String) : String := String.mk (s.data.map lowChar)

/-- The transport keys dropped by _strip_transport (json_handler.py). -/
def TRANSPORT_KEYS : List String := ["href", "links", "link", "rel"]

mutual

/-- Embedding of _strip_transport (json_handler.py): recursively drop
dict entries whose lowercased key is a transport key; copy lists and
dicts; return every other value unchanged. -/
def stripTransport : PyVal → PyVal
  | .vdict kvs => .vdict (stripPairs kvs)
  | .vlist xs => .vlist (stripVals xs)
  | v => v

/-- _strip_transport over the elements of a list. -/
def stripVals : List PyVal → List PyVal
  | [] => []
  | x :: xs => stripTransport x :: stripVals xs

/-- _strip_transport over the entries of a dict. -/
def stripPairs : List (String × PyVal) → List (String × PyVal)
  | [] => []
  | (k, v) :: rest =>
    if pyLowerS k ∈ TRANSPORT_KEYS then stripPairs rest
    else (k, stripTransport v) :: stripPairs rest

end

mutual

/-- No dict nested anywhere in the value carries a transport key. -/
def transportFree : PyVal → Bool
  | .vdict kvs => transportFreePairs kvs
  | .vlist xs => transportFreeVals xs
  | _ => true

/-- transportFree over list elements. -/
def transportFreeVals : List PyVal → Bool
  | [] => true
  | x :: xs => transportFree x && transportFreeVals xs

/-- transportFree over dict entries. -/
def transportFreePairs : List (String × PyVal) → Bool
  | [] => true
  | (k, v) :: rest =>
    decide (pyLowerS k ∉ TRANSPORT_KEYS) && transportFree v && transportFreePairs rest

end

/-- Model of Python str(x) as used by the company-id comparison in
build_company_bundle. Scalars print as in Python; the repository only
ever compares str() of scalar identifiers, so container reprs are
abbreviated placeholders. -/
def pyStr : PyVal → String
  | .vnone => "None"
  | .vbool true => "True"
  | .vbool false => "False"
  | .vnum q => toString q
  | .vstr s => s
  | .vlist _ => "<list>"
  | .vdict _ => "<dict>"

/-- The fixed category list CATEGORY_NAMES (helpers.py). -/
def CATEGORY_NAMES : List String :=
  ["Attack Surface", "Vulnerability Exposure", "IP Reputation & Threats",
   "Web Security Posture", "Leakage & Breach History", "Email Security"]

/-- One element of the `categories` list of a bundle, with the fields
written by build_company_bundle step 3. -/
structure CategoryRow where
  category : PyVal
  category_gpa : Option ℚ
  category_score : Option ℚ
  aggregated_at : PyVal

/-- Python `payload[0] if isinstance(payload, list) and payload else
payload`: the row object a category-GPA response resolves to. -/
def resolvedRow (payload : PyVal) : PyVal :=
  match payload with
  | .vlist (x :: _) => x
  | _ => payload

/-- Step 3 of build_company_bundle for one category: resolve the first
row of a list payload, fall back to a default row when the result is
not a dict, then extract name, gpa, score and timestamp through the
source's or-chains with fail-soft float conversion. -/
def buildCategoryRow (payload : PyVal) (cat : String) : CategoryRow :=
  let kvs := match resolvedRow payload with
    | .vdict kvs => kvs
    | _ => [("Category", .vstr cat), ("category_gpa", .vnone),
            ("category_score", .vnone)]
  let c_name := pyOr (pyGet kvs "Category") (pyOr (pyGet kvs "category") (.vstr cat))
  let gpa0 := pyOr (pyGet kvs "category_gpa") (pyOr (pyGet kvs "gpa") (pyGet kvs "value"))
  let score0 := pyOr (pyGet kvs "category_score") (pyGet kvs "score")
  let agg := pyOr (pyGet kvs "aggregated_at") (pyOr (pyGet kvs "date") .vnone)
  let gpa := if isNoneV gpa0 then none else pyFloat gpa0
  let score := if isNoneV score0 then none else pyFloat score0
  ⟨c_name, gpa, score, agg⟩

/-- The flexible company-id lookup _dcid inside build_company_bundle. -/
def dcid (d : List (String × PyVal)) : PyVal :=
  pyOr (pyGet d "company_id") (pyOr (pyGet d "companyId") (pyGet d "cid"))

/-- Whether a value is a Python dict. -/
def isDictV : PyVal → Bool
  | .vdict _ => true
  | _ => false

/-- Step 5's findings-shape normalization: a dict with a findings list
unwraps it, a list is taken as-is, a nonempty dict becomes a singleton
row list, everything else is empty. -/
def findingRows (raw : PyVal) : List PyVal :=
  match raw with
  | .vdict kvs =>
    match pyGet kvs "findings" with
    | .vlist rows => rows
    | _ => if kvs.isEmpty then [] else [raw]
  | .vlist rows => rows
  | _ => []

/-- Python r.pop("Category", None) on a finding row. -/
def popCategory : PyVal → PyVal
  | .vdict kvs => .vdict (kvs.eraseP (fun p => p.1 == "Category"))
  | v => v

/-- Errors build_company_bundle can raise: the company-without-id
ValueError, or a propagated fetch exception. -/
inductive BuildErr where
  | missingId : BuildErr
  | fetch : BuildErr
deriving DecidableEq

/-- The api.py fetchers build_company_bundle calls, as oracles that can
fail (an error models any exception escaping the fetcher). -/
structure Api where
  get_company_risk_grade : PyVal → Except Unit PyVal
  get_category_gpa : PyVal → String → Except Unit PyVal
  get_domain_score : PyVal → Except Unit PyVal
  get_findings_by_category : PyVal → String → Except Unit PyVal

/-- One element of the `domains` list of a bundle. -/
structure DomainRow where
  domain_id : PyVal
  domain_name : PyVal
  domain_score : Option ℚ
  findings_by_category : List (String × List PyVal)

/-- The bundle value assembled by build_company_bundle. -/
structure Bundle where
  schema_version : ℕ
  generated_at : String
  company_id : PyVal
  company : PyVal
  risk_grade : PyVal
  categories : List CategoryRow
  domains : List DomainRow

/-- The loop body of the findings loop in step 5: fetch the findings
for one domain and category (a failure propagates, as in the source),
normalize the shape, keep only dict rows, pop the Category key from
each, and strip transport keys. -/
def fetchFinding (api : Api) (did : PyVal) (cat : String) :
    Except BuildErr (String × List PyVal) := do
  let raw ← (api.get_findings_by_category did cat).mapError (fun _ => BuildErr.fetch)
  pure (cat, stripVals (((findingRows raw).filter isDictV).map popCategory))

/-- Step 5 of build_company_bundle for one (already stripped) domain
record: resolve id and name, fetch the score inside try/except with
fail-soft float conversion, and fetch/normalize/strip the findings for
each of the six categories. Only a findings fetch failure escapes, as
in the source (the score fetch is the sole try-wrapped call). -/
def buildDomainRow (api : Api) (d : List (String × PyVal)) :
    Except BuildErr DomainRow := do
  let did := pyOr (pyGet d "domain_id") (pyOr (pyGet d "id") (pyGet d "domainId"))
  let dname := pyOr (pyGet d "domain_name") (pyOr (pyGet d "domain") (pyGet d "name"))
  let dscore : Option ℚ :=
    match api.get_domain_score did with
    | .error _ => none
    | .ok v => if isNoneV v then none else pyFloat v
  let fbc ← CATEGORY_NAMES.mapM (fetchFinding api did)
  pure { domain_id := did, domain_name := dname, domain_score := dscore,
         findings_by_category := fbc }

/-- The loop body of the categories loop in step 3: fetch the category
GPA payload (a failure propagates, as in the source) and build the
category row from it. -/
def fetchCategoryRow (api : Api) (cid : PyVal) (cat : String) :
    Except BuildErr CategoryRow := do
  let payload ← (api.get_category_gpa cid cat).mapError (fun _ => BuildErr.fetch)
  pure (buildCategoryRow payload cat)

/-- Embedding of build_company_bundle (json_handler.py): company-id
resolution through the or-chain with the ValueError on None, transport
stripping of the company record, the risk-grade fetch (not
try-wrapped; only a falsy return degrades to an empty dict), the six
category fetches (not try-wrapped), string-equality domain filtering,
and the per-domain score/findings assembly. `now` stands for
_now_iso(). -/
def build_company_bundle (api : Api) (now : String)
    (company : List (String × PyVal))
    (all_domains : List (List (String × PyVal))) : Except BuildErr Bundle := do
  let cid := pyOr (pyGet company "company_id") (pyGet company "id")
  if isNoneV cid then throw .missingId
  let company_clean := stripTransport (.vdict company)
  let rg ← (api.get_company_risk_grade cid).mapError (fun _ => BuildErr.fetch)
  let risk_grade := stripTransport (pyOr rg (.vdict []))
  let categories ← CATEGORY_NAMES.mapM (fetchCategoryRow api cid)
  let sid := pyStr cid
  let domains_for_company :=
    (all_domains.filter (fun d => pyStr (dcid d) == sid)).map stripPairs
  let domain_details ← domains_for_company.mapM (buildDomainRow api)
  pure { schema_version := 1, generated_at := now, company_id := cid,
         company := company_clean, risk_grade := risk_grade,
         categories := categories, domains := domain_details }

mutual

/-- Structural equality test on Python values (used to count category
records by name in concrete bundles). -/
def pyEq : PyVal → PyVal → Bool
  | .vnone, .vnone => true
  | .vbool a, .vbool b => a == b
  | .vnum a, .vnum b => a == b
  | .vstr a, .vstr b => a == b
  | .vlist a, .vlist b => pyEqList a b
  | .vdict a, .vdict b => pyEqPairs a b
  | _, _ => false

def pyEqList : List PyVal → List PyVal → Bool
  | [], [] => true
  | a :: arest, b :: brest => pyEq a b && pyEqList arest brest
  | _, _ => false

def pyEqPairs : List (String × PyVal) → List (String × PyVal) → Bool
  | [], [] => true
  | (k1, v1) :: r1, (k2, v2) :: r2 => k1 == k2 && pyEq v1 v2 && pyEqPairs r1 r2
  | _, _ => false

end

/-- A stub upstream API whose every fetch succeeds with the fixed
value v. -/
def apiConst (v : PyVal) : Api where
  get_company_risk_grade := fun _ => .ok v
  get_category_gpa := fun _ _ => .ok v
  get_domain_score := fun _ => .ok v
  get_findings_by_category := fun _ _ => .ok v

/-- A stub API whose category-GPA fetch raises for Attack Surface and
succeeds for every other category. -/
def apiCatFail : Api :=
  { apiConst .vnone with
    get_category_gpa := fun _ cat =>
      if cat = "Attack Surface" then .error () else .ok .vnone }

/-- A stub API whose domain-score fetch always raises. -/
def apiDomainScoreFail : Api :=
  { apiConst .vnone with get_domain_score := fun _ => .error () }

/-- A stub API whose Attack Surface category response carries the name
of a different canonical category. -/
def apiRename : Api :=
  { apiConst .vnone with
    get_category_gpa := fun _ cat =>
      .ok (if cat = "Attack Surface" then
        .vdict [("Category", .vstr "Email Security"), ("category_gpa", .vnum 2)]
      else .vnone) }

/-- A stub API returning HATEOAS-laden risk grades and finding rows. -/
def apiHref : Api :=
  { apiConst .vnone with
    get_company_risk_grade := fun _ =>
      .ok (.vdict [("grade", .vstr "B"), ("href", .vstr "u"),
        ("nested", .vdict [("links", .vlist [.vstr "u2"]), ("x", .vnum 1)])]),
    get_findings_by_category := fun _ _ =>
      .ok (.vlist [.vdict [("f", .vnum 1), ("rel", .vstr "self")]]) }

/-- Concrete company record with transport keys, for exercising the
stripping pipeline. -/
def companyW6 : List (String × PyVal) :=
  [("company_id", .vnum 1), ("href", .vstr "x"),
   ("meta", .vdict [("rel", .vstr "self"), ("n", .vnum 2)])]

/-- Concrete domain list with transport keys, for exercising the
stripping pipeline. -/
def domainsW6 : List (List (String × PyVal)) :=
  [[("company_id", .vnum 1), ("domain_id", .vnum 5),
    ("links", .vlist [.vstr "u"])]]

/-- Unwrap a successful build result (an error yields an empty bundle;
used only to state concrete witnesses without binders). -/
def bundleOrEmpty : Except BuildErr Bundle → Bundle
  | .ok b => b
  | .error _ =>
    { schema_version := 0, generated_at := "", company_id := .vnone,
      company := .vnone, risk_grade := .vnone, categories := [], domains := [] }

/-! ### HTTP client (api.py) -/

/-- Python url[:-1] if url.endswith("/") else url + "/": toggle the
trailing slash of a URL. -/
def toggleSlash (u : String) : String :=
  if u.data.getLast? = some '/' then String.mk u.data.dropLast
  else String.mk (u.data ++ ['/'])

/-- The URL built by _get in api.py: BASE plus the path, with a slash
inserted when the path does not start with one. -/
def mkUrl (base path : String) : String :=
  base ++ (if path.data.head? = some '/' then path else "/" ++ path)

/-- Embedding of _get from api.py, instrumented with the list of URLs
requested: issue the request; on any failure toggle the trailing slash
and, when the alternate URL differs from the original, retry exactly
once, else re-raise the original error. The request function stands
for _request. -/
def apiGetT {E V : Type} (req : String → Except E V) (base path : String) :
    Except E V × List String :=
  let url := mkUrl base path
  match req url with
  | .ok v => (.ok v, [url])
  | .error e =>
    let alt := toggleSlash url
    if alt ≠ url then (req alt, [url, alt]) else (.error e, [url])

/-! ### Heap model of build_company_bundle (json_handler.py), for the
argument-mutation claim.  Python dicts and lists are heap objects;
numbers, strings, booleans and None are immutable values.  The build
is re-embedded in store-passing style so that mutation of caller
structures is expressible: the only write the source performs is
r.pop("Category", None) on freshly fetched finding rows. -/

/-- Immutable Python scalar. -/
inductive HAtom where
  | anone : HAtom
  | abool : Bool → HAtom
  | anum : ℚ → HAtom
  | astr : String → HAtom

/-- A Python value: a scalar or a reference to a heap object. -/
inductive HVal where
  | atom : HAtom → HVal
  | ref : Nat → HVal

/-- A heap object: a dict or a list. -/
inductive HNode where
  | ndict : List (String × HVal) → HNode
  | nlist : List HVal → HNode

/-- The heap: an association list (newest first) and the next free
address. -/
structure Heap where
  mem : List (Nat × HNode)
  next : Nat

/-- Read an address. -/
def hfind (h : Heap) (a : Nat) : Option HNode :=
  (h.mem.find? (fun p => p.1 == a)).map (·.2)

/-- Allocate a fresh object. -/
def halloc (h : Heap) (n : HNode) : Heap × HVal :=
  ({ mem := (h.next, n) :: h.mem, next := h.next + 1 }, .ref h.next)

/-- Overwrite the object at an address (Python in-place mutation). -/
def hset (h : Heap) (a : Nat) (n : HNode) : Heap :=
  { mem := (a, n) :: h.mem, next := h.next }

/-- Python d.get(k); the build only applies it to dicts. -/
def hgetD (h : Heap) (v : HVal) (k : String) : HVal :=
  match v with
  | .ref a =>
    match hfind h a with
    | some (.ndict kvs) =>
      match kvs.find? (fun p => p.1 == k) with
      | some p => p.2
      | none => .atom .anone
    | _ => .atom .anone
  | _ => .atom .anone

/-- Python truthiness over the heap. -/
def htruthy (h : Heap) (v : HVal) : Bool :=
  match v with
  | .atom .anone => false
  | .atom (.abool b) => b
  | .atom (.anum q) => decide (q ≠ 0)
  | .atom (.astr s) => decide (s ≠ "")
  | .ref a =>
    match hfind h a with
    | some (.ndict kvs) => !kvs.isEmpty
    | some (.nlist xs) => !xs.isEmpty
    | none => true

/-- Python `a or b` over the heap. -/
def hOr (h : Heap) (a b : HVal) : HVal := if htruthy h a then a else b

/-- Python `x is None`. -/
def hIsNone : HVal → Bool
  | .atom .anone => true
  | _ => false

/-- Python float(x) over heap values: container references raise,
modelled as none. -/
def hfloat : HVal → Option ℚ
  | .atom (.anum q) => some q
  | .atom (.abool b) => some (if b then 1 else 0)
  | .atom (.astr s) => parseFloat s
  | _ => none

/-- Python str(x) as used by the company-id filter; the repository
compares scalar ids, container reprs are abbreviated. -/
def hStr : HVal → String
  | .atom .anone => "None"
  | .atom (.abool true) => "True"
  | .atom (.abool false) => "False"
  | .atom (.anum q) => toString q
  | .atom (.astr s) => s
  | .ref _ => "<obj>"

/-- Whether the value is a dict reference. -/
def hIsDict (h : Heap) (v : HVal) : Bool :=
  match v with
  | .ref a =>
    match hfind h a with
    | some (.ndict _) => true
    | _ => false
  | _ => false

/-- Whether the value is a list reference. -/
def hIsList (h : Heap) (v : HVal) : Bool :=
  match v with
  | .ref a =>
    match hfind h a with
    | some (.nlist _) => true
    | _ => false
  | _ => false

/-- Elements of a list reference. -/
def helems (h : Heap) (v : HVal) : List HVal :=
  match v with
  | .ref a =>
    match hfind h a with
    | some (.nlist xs) => xs
    | _ => []
  | _ => []

mutual

/-- Allocate a freshly parsed JSON tree into the heap (models the
object construction performed by response parsing in the fetchers). -/
def allocVal : Heap → PyVal → Heap × HVal
  | h, .vnone => (h, .atom .anone)
  | h, .vbool b => (h, .atom (.abool b))
  | h, .vnum q => (h, .atom (.anum q))
  | h, .vstr s => (h, .atom (.astr s))
  | h, .vlist xs =>
    let (h1, vs) := allocList h xs
    halloc h1 (.nlist vs)
  | h, .vdict kvs =>
    let (h1, kvs2) := allocPairs h kvs
    halloc h1 (.ndict kvs2)

/-- Allocate the elements of a list tree. -/
def allocList : Heap → List PyVal → Heap × List HVal
  | h, [] => (h, [])
  | h, x :: xs =>
    let (h1, v) := allocVal h x
    let (h2, vs) := allocList h1 xs
    (h2, v :: vs)

/-- Allocate the entries of a dict tree. -/
def allocPairs : Heap → List (String × PyVal) → Heap × List (String × HVal)
  | h, [] => (h, [])
  | h, (k, x) :: rest =>
    let (h1, v) := allocVal h x
    let (h2, vs) := allocPairs h1 rest
    (h2, (k, v) :: vs)

end

mutual

/-- Heap version of _strip_transport: it reads its input and builds
fresh copies, writing nothing to existing objects; the fuel models
Python's recursion limit (any cyclic input would exhaust the stack). -/
def hstrip : Nat → Heap → HVal → Heap × HVal
  | 0, h, v => (h, v)
  | _ + 1, h, .atom a => (h, .atom a)
  | fuel + 1, h, .ref a =>
    match hfind h a with
    | some (.ndict kvs) =>
      let (h1, kvs2) := hstripPairs fuel h kvs
      halloc h1 (.ndict kvs2)
    | some (.nlist xs) =>
      let (h1, xs2) := hstripList fuel h xs
      halloc h1 (.nlist xs2)
    | none => (h, .ref a)

/-- _strip_transport over list elements. -/
def hstripList : Nat → Heap → List HVal → Heap × List HVal
  | _, h, [] => (h, [])
  | fuel, h, x :: xs =>
    let (h1, v) := hstrip fuel h x
    let (h2, vs) := hstripList fuel h1 xs
    (h2, v :: vs)

/-- _strip_transport over dict entries. -/
def hstripPairs : Nat → Heap → List (String × HVal) → Heap × List (String × HVal)
  | _, h, [] => (h, [])
  | fuel, h, (k, v) :: rest =>
    if pyLowerS k ∈ TRANSPORT_KEYS then hstripPairs fuel h rest
    else
      let (h1, v2) := hstrip fuel h v
      let (h2, rest2) := hstripPairs fuel h1 rest
      (h2, (k, v2) :: rest2)

end

/-- Python r.pop("Category", None): the single in-place mutation the
build performs, on a finding-row dict. -/
def hpop (h : Heap) (v : HVal) : Heap :=
  match v with
  | .ref a =>
    match hfind h a with
    | some (.ndict kvs) => hset h a (.ndict (kvs.eraseP (fun p => p.1 == "Category")))
    | _ => h
  | _ => h

/-- The findings-shape normalization of step 5, over the heap. -/
def findingRowsH (h : Heap) (raw : HVal) : List HVal :=
  match raw with
  | .ref a =>
    match hfind h a with
    | some (.ndict kvs) =>
      if hIsList h (hgetD h raw "findings") then helems h (hgetD h raw "findings")
      else if kvs.isEmpty then [] else [raw]
    | some (.nlist xs) => xs
    | none => []
  | _ => []

/-- The api.py fetchers as seen by the heap embedding: results are
freshly parsed JSON trees. -/
structure HApi where
  get_company_risk_grade : HVal → Except Unit PyVal
  get_category_gpa : HVal → String → Except Unit PyVal
  get_domain_score : HVal → Except Unit PyVal
  get_findings_by_category : HVal → String → Except Unit PyVal

/-- Step 3 row resolution: if the payload is a list, take its first
element. -/
def catRowResolve (h : Heap) (payload : HVal) : HVal :=
  match payload with
  | .ref a =>
    match hfind h a with
    | some (.nlist (x :: _)) => x
    | _ => payload
  | _ => payload

/-- Step 3 row coercion: allocate the fallback literal when the
resolved row is not a dict. -/
def catRowEnsureDict (h : Heap) (row : HVal) (cat : String) : Heap × HVal :=
  if hIsDict h row then (h, row)
  else halloc h (.ndict [("Category", .atom (.astr cat)),
    ("category_gpa", .atom .anone), ("category_score", .atom .anone)])

/-- Step 3 field extraction: the stored category-row object, built by
reading the row through the or-chains. -/
def catRowFields (h1 : Heap) (row : HVal) (cat : String) : HNode :=
  let c_name := hOr h1 (hgetD h1 row "Category")
    (hOr h1 (hgetD h1 row "category") (.atom (.astr cat)))
  let gpa0 := hOr h1 (hgetD h1 row "category_gpa")
    (hOr h1 (hgetD h1 row "gpa") (hgetD h1 row "value"))
  let score0 := hOr h1 (hgetD h1 row "category_score") (hgetD h1 row "score")
  let agg := hOr h1 (hgetD h1 row "aggregated_at")
    (hOr h1 (hgetD h1 row "date") (.atom .anone))
  let gpa : HVal := if hIsNone gpa0 then .atom .anone else
    match hfloat gpa0 with
    | some q => .atom (.anum q)
    | none => .atom .anone
  let score : HVal := if hIsNone score0 then .atom .anone else
    match hfloat score0 with
    | some q => .atom (.anum q)
    | none => .atom .anone
  .ndict [("Category", c_name), ("category_gpa", gpa),
    ("category_score", score), ("aggregated_at", agg)]

/-- Step 3 for one category over the heap: resolve the row, allocate
the fallback literal when the row is not a dict, extract the fields
through the or-chains, and allocate the result row. -/
def catRowH (h : Heap) (payload : HVal) (cat : String) : Heap × HVal :=
  let (h1, row) := catRowEnsureDict h (catRowResolve h payload) cat
  halloc h1 (catRowFields h1 row cat)

/-- The category loop of step 3 over the heap. -/
def catLoopH (api : HApi) (cid : HVal) : Heap → List String →
    Heap × Except BuildErr (List HVal)
  | h, [] => (h, .ok [])
  | h, cat :: cats =>
    match api.get_category_gpa cid cat with
    | .error _ => (h, .error .fetch)
    | .ok tree =>
      let (h1, payload) := allocVal h tree
      let (h2, row) := catRowH h1 payload cat
      match catLoopH api cid h2 cats with
      | (h3, .error e) => (h3, .error e)
      | (h3, .ok rest) => (h3, .ok (row :: rest))

/-- The findings loop of step 5 over the heap: fetch, allocate the
parsed tree, keep dict rows, pop their Category keys in place, strip
transport keys into fresh copies. -/
def findingsLoopH (api : HApi) (fuel : Nat) (did : HVal) : Heap → List String →
    Heap × Except BuildErr (List (String × List HVal))
  | h, [] => (h, .ok [])
  | h, cat :: cats =>
    match api.get_findings_by_category did cat with
    | .error _ => (h, .error .fetch)
    | .ok tree =>
      let (h1, raw) := allocVal h tree
      let rows := (findingRowsH h1 raw).filter (hIsDict h1)
      let h2 := rows.foldl hpop h1
      let (h3, rows2) := hstripList fuel h2 rows
      match findingsLoopH api fuel did h3 cats with
      | (h4, .error e) => (h4, .error e)
      | (h4, .ok rest) => (h4, .ok ((cat, rows2) :: rest))

/-- The flexible domain company-id lookup over the heap. -/
def dcidH (h : Heap) (d : HVal) : HVal :=
  hOr h (hgetD h d "company_id") (hOr h (hgetD h d "companyId") (hgetD h d "cid"))

/-- Allocate the per-category finding lists as list objects. -/
def allocFbc : Heap → List (String × List HVal) → Heap × List (String × HVal)
  | h, [] => (h, [])
  | h, (k, rows) :: rest =>
    let (h1, lref) := halloc h (.nlist rows)
    let (h2, rest2) := allocFbc h1 rest
    (h2, (k, lref) :: rest2)

/-- Shared tail of the per-domain step: run the findings loop and
allocate the per-category dict and the row dict. -/
def domainRowAssemble (api : HApi) (fuel : Nat) (h : Heap)
    (did dname dscore : HVal) : Heap × Except BuildErr HVal :=
  match findingsLoopH api fuel did h CATEGORY_NAMES with
  | (h1, .error e) => (h1, .error e)
  | (h1, .ok fbc) =>
    let (h2, lrefs) := allocFbc h1 fbc
    let (h3, fdict) := halloc h2 (.ndict lrefs)
    let (h4, rref) := halloc h3 (.ndict [("domain_id", did), ("domain_name", dname),
      ("domain_score", dscore), ("findings_by_category", fdict)])
    (h4, .ok rref)

/-- Step 5 for one (stripped) domain over the heap. -/
def domainRowH (api : HApi) (fuel : Nat) (h : Heap) (d : HVal) :
    Heap × Except BuildErr HVal :=
  let did := hOr h (hgetD h d "domain_id") (hOr h (hgetD h d "id") (hgetD h d "domainId"))
  let dname := hOr h (hgetD h d "domain_name") (hOr h (hgetD h d "domain") (hgetD h d "name"))
  match api.get_domain_score did with
  | .error _ =>
    domainRowAssemble api fuel h did dname (.atom .anone)
  | .ok tree =>
    let (h1, sv) := allocVal h tree
    let dscore : HVal := if hIsNone sv then .atom .anone else
      match hfloat sv with
      | some q => .atom (.anum q)
      | none => .atom .anone
    domainRowAssemble api fuel h1 did dname dscore

/-- The domain loop over the heap. -/
def domainsLoopH (api : HApi) (fuel : Nat) : Heap → List HVal →
    Heap × Except BuildErr (List HVal)
  | h, [] => (h, .ok [])
  | h, d :: ds =>
    match domainRowH api fuel h d with
    | (h1, .error e) => (h1, .error e)
    | (h1, .ok row) =>
      match domainsLoopH api fuel h1 ds with
      | (h2, .error e) => (h2, .error e)
      | (h2, .ok rest) => (h2, .ok (row :: rest))

/-- Heap embedding of build_company_bundle: the same steps as the
value-level embedding, with every Python object operation (reads,
fresh allocations, and the single pop mutation) explicit in the store.
The company record and the domain list are passed as addresses of
pre-existing heap objects. -/
def buildH (api : HApi) (fuel : Nat) (now : String) (h : Heap)
    (company domains : Nat) : Heap × Except BuildErr HVal :=
  let cid := hOr h (hgetD h (.ref company) "company_id")
    (hgetD h (.ref company) "id")
  if hIsNone cid then (h, .error .missingId)
  else
    let (h1, company_clean) := hstrip fuel h (.ref company)
    match api.get_company_risk_grade cid with
    | .error _ => (h1, .error .fetch)
    | .ok tree =>
      let (h2, rgraw) := allocVal h1 tree
      let (h3, rgval) := if htruthy h2 rgraw then (h2, rgraw)
        else halloc h2 (.ndict [])
      let (h4, risk_grade) := hstrip fuel h3 rgval
      match catLoopH api cid h4 CATEGORY_NAMES with
      | (h5, .error e) => (h5, .error e)
      | (h5, .ok cats) =>
        let (h6, catsRef) := halloc h5 (.nlist cats)
        let sid := hStr cid
        let dlist := (helems h6 (.ref domains)).filter
          (fun d => hStr (dcidH h6 d) == sid)
        let (h7, dstripped) := hstripList fuel h6 dlist
        match domainsLoopH api fuel h7 dstripped with
        | (h8, .error e) => (h8, .error e)
        | (h8, .ok rows) =>
          let (h9, domsRef) := halloc h8 (.nlist rows)
          let (h10, bref) := halloc h9 (.ndict [("schema_version", .atom (.anum 1)),
            ("generated_at", .atom (.astr now)), ("company_id", cid),
            ("company", company_clean), ("risk_grade", risk_grade),
            ("categories", catsRef), ("domains", domsRef)])
          (h10, .ok bref)

/-- The value, if a reference, points at or above address n. -/
def refGE (n : Nat) (v : HVal) : Prop := ∀ a, v = .ref a → n ≤ a

/-- Every reference stored in the node points at or above address n. -/
def nodeRefsGE (n : Nat) : HNode → Prop
  | .ndict kvs => ∀ p ∈ kvs, refGE n p.2
  | .nlist xs => ∀ v ∈ xs, refGE n v

/-- No object is stored at or above the next-free address. -/
def wfHi (h : Heap) : Prop := ∀ a, h.next ≤ a → hfind h a = none

/-- Relation between heaps across a build step: the free pointer only
grows, every address below n reads unchanged, and the result is
well-formed. -/
def evolvesN (n : Nat) (h h2 : Heap) : Prop :=
  h.next ≤ h2.next ∧ (∀ a, a < n → hfind h2 a = hfind h a) ∧ wfHi h2

/-- An allocation-only step: nothing below the old free pointer
changes, and every object living at a fresh address only references
fresh addresses. -/
def allocStep (h h2 : Heap) : Prop :=
  evolvesN h.next h h2 ∧
  ∀ a node, h.next ≤ a → hfind h2 a = some node → nodeRefsGE h.next node

/-- A concrete caller heap exercising the build: the company dict at
address 0, the all_domains list at 1, one domain dict at 2. -/
def hW10 : Heap :=
  ⟨[(0, .ndict [("id", .atom (.anum 1))]),
    (1, .nlist [.ref 2]),
    (2, .ndict [("company_id", .atom (.anum 1)),
      ("Category", .atom (.astr "x"))])], 3⟩

/-- A concrete api whose fetchers all succeed, with a findings row
carrying a Category key (so the build's pop actually fires). -/
def apiW10 : HApi :=
  ⟨fun _ => .ok (.vdict [("grade", .vstr "A")]),
   fun _ _ => .ok (.vlist [.vdict [("category_gpa", .vnum 3)]]),
   fun _ => .ok (.vnum 2),
   fun _ _ => .ok (.vlist [.vdict [("Category", .vstr "c"),
     ("severity", .vnum 1)]])⟩

end PCP

namespace PCP

/-- The probing loop of extract_number returns the first candidate key
whose value converts to float, i.e. it is List.findSome? over the keys. -/
theorem probeKeys_eq_findSome (kvs : List (String × PyVal)) (ks : List String) :
    probeKeys kvs ks = ks.findSome? (fun k => pyFloat (pyGet kvs k)) := by
  induction ks with
  | nil => rfl
  | cons k ks ih =>
    simp only [probeKeys, List.findSome?_cons]
    cases pyFloat (pyGet kvs k) <;> simp [ih]

end PCP

/-- C7: extract_number({"gpa": "3.5"}) = 3.5,
extract_number({"unrelated": 9}) = None,
extract_number("not a number") = None, and on every dict it returns the
value at the first key of the fixed candidate order whose value is
convertible to float (None when no key matches, never raising). -/
theorem c7_extract_number_fallback_chain :
    PCP.extract_number (.vdict [("gpa", .vstr "3.5")]) = some (mkRat 7 2) ∧
    PCP.extract_number (.vdict [("unrelated", .vnum 9)]) = none ∧
    PCP.extract_number (.vstr "not a number") = none ∧
    ∀ kvs, PCP.extract_number (.vdict kvs) =
      PCP.CANDIDATE_KEYS.findSome? (fun k => PCP.pyFloat (PCP.pyGet kvs k)) :=
  ⟨by rfl, by rfl, by rfl,
   fun kvs => PCP.probeKeys_eq_findSome kvs _⟩

/-- C8 counterexample: on the input "XX.YY" no known CSF function
matches, yet both copies of the function-code lookup return "XX",
which is neither one of the six codes nor the empty string the claim
requires. -/
theorem c8_function_code_counterexample :
    PCP.get_function_from_code_or_ref "XX.YY" = "XX" ∧
    PCP.get_function_from_code_or_ref_helpers "XX.YY" = "XX" ∧
    "XX" ∉ PCP.CSF_L1_CODES ∧ "XX" ≠ "" := by
  decide

/-- C8 amended: the lookup returns one of the six CSF codes whenever
one matches; otherwise the nist_helpers version falls back to the
pre-dot head of the normalized reference — which can itself be empty
even for a non-empty normalization, as on ".AB" — and the helpers
version falls back to either the empty string or the uppercased
length-two pre-dot head of the stripped input. -/
theorem c8_function_code_amended :
    (∀ s : String,
      (PCP.get_function_from_code_or_ref s ∈ PCP.CSF_L1_CODES ∨
        PCP.get_function_from_code_or_ref s = PCP.headSeg (PCP.norm_ref s)) ∧
      (PCP.get_function_from_code_or_ref_helpers s ∈ PCP.CSF_L1_CODES ∨
        PCP.get_function_from_code_or_ref_helpers s = "" ∨
        PCP.get_function_from_code_or_ref_helpers s =
          String.mk (PCP.upper ((PCP.strip s.data).takeWhile (· ≠ '.'))))) ∧
    PCP.get_function_from_code_or_ref ".AB" = "" ∧
    PCP.norm_ref ".AB" = ".AB" := by
  refine ⟨fun s => ?_, by decide, by decide⟩
  constructor
  · by_cases h1 : PCP.norm_ref s = ""
    · right
      simp [PCP.get_function_from_code_or_ref, h1, PCP.headSeg]
    · by_cases h2 : PCP.headSeg (PCP.norm_ref s) ∈ PCP.CSF_L1_CODES
      · left
        simp [PCP.get_function_from_code_or_ref, h1, h2]
      · by_cases h3 : (if PCP.prefixOf (PCP.norm_ref s) = "" then ""
            else PCP.headSeg (PCP.prefixOf (PCP.norm_ref s))) ∈ PCP.CSF_L1_CODES
        · left
          simp [PCP.get_function_from_code_or_ref, h1, h2, h3]
        · cases hf : List.find?
              (fun fn => fn.data.isPrefixOf (PCP.norm_ref s).data) PCP.CSF_L1_CODES with
          | some fn =>
            left
            simp only [PCP.get_function_from_code_or_ref, if_neg h1, if_neg h2,
              if_neg h3, hf]
            exact List.mem_of_find?_eq_some hf
          | none =>
            right
            simp only [PCP.get_function_from_code_or_ref, if_neg h1, if_neg h2,
              if_neg h3, hf]
  · unfold PCP.get_function_from_code_or_ref_helpers
    split
    · right; left; rfl
    · split
      · right; right; rfl
      · split
        · left; decide
        · split
          · left; assumption
          · right; left; rfl

namespace PCP

/-- Toggling the trailing slash always changes the URL (the lengths
differ), so the alternate-equals-original edge case of the retry
policy never fires. -/
theorem toggleSlash_ne (u : String) : toggleSlash u ≠ u := by
  unfold toggleSlash
  split
  · rename_i h
    intro he
    have hd : u.data.dropLast = u.data := congrArg String.data he
    have hne : u.data ≠ [] := by
      intro hnil; rw [hnil] at h; simp at h
    have := congrArg List.length hd
    rw [List.length_dropLast] at this
    have hpos : 0 < u.data.length := List.length_pos.mpr hne
    omega
  · intro he
    have hd : u.data ++ ['/'] = u.data := congrArg String.data he
    have := congrArg List.length hd
    simp at this

end PCP

/-- C9: behavior of the HTTP client's _get (api.py): a successful
initial request is returned as-is with no retry; on any failure the
alternate URL obtained by toggling the trailing slash is requested
exactly once and its result returned; and the alternate URL never
equals the original (so the no-retry edge case propagating the
original error is vacuous). The trace component lists the URLs
requested, in order. -/
theorem c9_trailing_slash_retry {E V : Type} (req : String → Except E V)
    (base path : String) :
    PCP.toggleSlash (PCP.mkUrl base path) ≠ PCP.mkUrl base path ∧
    (∀ v, req (PCP.mkUrl base path) = .ok v →
      PCP.apiGetT req base path = (.ok v, [PCP.mkUrl base path])) ∧
    (∀ e, req (PCP.mkUrl base path) = .error e →
      PCP.apiGetT req base path =
        (req (PCP.toggleSlash (PCP.mkUrl base path)),
         [PCP.mkUrl base path, PCP.toggleSlash (PCP.mkUrl base path)])) := by
  refine ⟨PCP.toggleSlash_ne _, ?_, ?_⟩
  · intro v h
    simp [PCP.apiGetT, h]
  · intro e h
    simp [PCP.apiGetT, h, PCP.toggleSlash_ne]

/-- C9 witness: with a request function that fails on
"http://b/p" and returns 7 on "http://b/p/", _get("p") retries once on
the slash-toggled URL and returns 7. -/
theorem c9_trailing_slash_retry_witness :
    PCP.apiGetT
      (fun u : String =>
        if u = "http://b/p" then (Except.error () : Except Unit Nat) else .ok 7)
      "http://b" "p" = (.ok 7, ["http://b/p", "http://b/p/"]) := by
  have h := (c9_trailing_slash_retry
    (fun u : String =>
      if u = "http://b/p" then (Except.error () : Except Unit Nat) else .ok 7)
    "http://b" "p").2.2 () (by rfl)
  rw [h]
  rfl

/-- C2: the spec's round-trip examples for normalize_control_ref.
The second and third hold on the code, but norm_ref("PR-PS-1") returns
"PR-PS-1": the code splits at the FIRST hyphen, so the tail "PS-1" is
not purely numeric and is kept verbatim, contradicting both the claim
and the function's own docstring (which promises PR-PS-1 to PR.PS-01).
This theorem evaluates the code at the failing input. -/
theorem c2_norm_ref_round_trip_code_bug :
    PCP.norm_ref "pr_ps_01" = "PR.PS-01" ∧
    PCP.norm_ref "GV.OC-02" = "GV.OC-02" ∧
    PCP.norm_ref "PR-PS-1" = "PR-PS-1" ∧
    PCP.norm_ref "PR-PS-1" ≠ "PR.PS-01" := by
  refine ⟨rfl, rfl, rfl, ?_⟩
  decide

namespace PCP

/-- mapM over Except succeeds elementwise: if every element maps to ok
of g, the whole mapM is ok of the map. -/
theorem mapM_ok_of_map {E α β : Type} (f : α → Except E β) (g : α → β) :
    ∀ l : List α, (∀ a ∈ l, f a = .ok (g a)) → l.mapM f = .ok (l.map g) := by
  intro l
  induction l with
  | nil => intro _; rfl
  | cons a l ih =>
    intro h
    rw [List.mapM_cons, h a (List.mem_cons_self a l),
      ih (fun x hx => h x (List.mem_cons_of_mem a hx))]
    rfl

/-- mapM over Except succeeds when every element succeeds. -/
theorem mapM_isOk {E α β : Type} (f : α → Except E β) :
    ∀ l : List α, (∀ a ∈ l, ∃ b, f a = .ok b) → ∃ ys, l.mapM f = .ok ys := by
  intro l
  induction l with
  | nil => intro _; exact ⟨[], rfl⟩
  | cons a l ih =>
    intro h
    obtain ⟨b, hb⟩ := h a (List.mem_cons_self a l)
    obtain ⟨ys, hys⟩ := ih (fun x hx => h x (List.mem_cons_of_mem a hx))
    exact ⟨b :: ys, by rw [List.mapM_cons, hb, hys]; rfl⟩

/-- A successful mapM over Except relates inputs and outputs pointwise. -/
theorem mapM_ok_forall₂ {E α β : Type} (f : α → Except E β) :
    ∀ (l : List α) (ys : List β), l.mapM f = .ok ys →
      List.Forall₂ (fun a b => f a = .ok b) l ys := by
  intro l
  induction l with
  | nil =>
    intro ys h
    have h' : (Except.ok [] : Except E (List β)) = .ok ys := h
    cases h'
    exact List.Forall₂.nil
  | cons a l ih =>
    intro ys h
    rw [List.mapM_cons] at h
    cases hfa : f a with
    | error e =>
      rw [hfa] at h
      exact absurd h (fun hh => Except.noConfusion hh)
    | ok b =>
      rw [hfa] at h
      cases hm : l.mapM f with
      | error e =>
        rw [hm] at h
        exact absurd h (fun hh => Except.noConfusion hh)
      | ok xs =>
        rw [hm] at h
        have h' : (Except.ok (b :: xs) : Except E (List β)) = .ok ys := h
        injection h' with h''
        subst h''
        exact List.Forall₂.cons hfa (ih xs hm)

/-- A failing mapM over Except exhibits a failing element. -/
theorem mapM_error_mem {E α β : Type} (f : α → Except E β) :
    ∀ (l : List α) (e : E), l.mapM f = .error e → ∃ a ∈ l, f a = .error e := by
  intro l
  induction l with
  | nil =>
    intro e h
    exact absurd h (fun hh => Except.noConfusion hh)
  | cons a l ih =>
    intro e h
    rw [List.mapM_cons] at h
    cases hfa : f a with
    | error e2 =>
      rw [hfa] at h
      have h' : (Except.error e2 : Except E (List β)) = .error e := h
      injection h' with h''
      exact ⟨a, List.mem_cons_self a l, by rw [hfa, h'']⟩
    | ok b =>
      rw [hfa] at h
      cases hm : l.mapM f with
      | error e2 =>
        rw [hm] at h
        have h' : (Except.error e2 : Except E (List β)) = .error e := h
        injection h' with h''
        obtain ⟨x, hx, hfx⟩ := ih e2 hm
        rw [h''] at hfx
        exact ⟨x, List.mem_cons_of_mem a hx, hfx⟩
      | ok xs =>
        rw [hm] at h
        exact absurd h (fun hh => Except.noConfusion hh)

/-- Pointwise consequence of Forall₂ along zipped pairs. -/
theorem forall₂_mem_zip {α β : Type} {R : α → β → Prop} :
    ∀ {l : List α} {ys : List β}, List.Forall₂ R l ys →
      ∀ p ∈ l.zip ys, R p.1 p.2 := by
  intro l ys h
  induction h with
  | nil => intro p hp; cases hp
  | cons hR _ ih =>
    intro p hp
    rw [List.zip_cons_cons] at hp
    cases hp with
    | head => exact hR
    | tail _ hp => exact ih p hp

/-- Every element of the right list of a Forall₂ has a witness on the
left. -/
theorem forall₂_mem_right {α β : Type} {R : α → β → Prop} :
    ∀ {l : List α} {ys : List β}, List.Forall₂ R l ys →
      ∀ b ∈ ys, ∃ a ∈ l, R a b := by
  intro l ys h
  induction h with
  | nil => intro b hb; cases hb
  | cons hR _ ih =>
    intro b hb
    cases hb with
    | head =>
      exact ⟨_, List.mem_cons_self _ _, hR⟩
    | tail _ hb =>
      obtain ⟨a, ha, hab⟩ := ih b hb
      exact ⟨a, List.mem_cons_of_mem _ ha, hab⟩

end PCP

namespace PCP

mutual

/-- Stripping transport keys yields a transport-free value. -/
theorem stripTransport_free : (v : PyVal) → transportFree (stripTransport v) = true
  | .vnone => rfl
  | .vbool _ => rfl
  | .vnum _ => rfl
  | .vstr _ => rfl
  | .vlist xs => by
    simp only [stripTransport, transportFree]
    exact stripVals_free xs
  | .vdict kvs => by
    simp only [stripTransport, transportFree]
    exact stripPairs_free kvs

/-- Stripping transport keys elementwise yields transport-free lists. -/
theorem stripVals_free : (xs : List PyVal) → transportFreeVals (stripVals xs) = true
  | [] => rfl
  | x :: xs => by
    simp only [stripVals, transportFreeVals, Bool.and_eq_true]
    exact ⟨stripTransport_free x, stripVals_free xs⟩

/-- Stripping transport keys from dict entries yields transport-free
entry lists. -/
theorem stripPairs_free :
    (kvs : List (String × PyVal)) → transportFreePairs (stripPairs kvs) = true
  | [] => rfl
  | (k, v) :: rest => by
    by_cases h : pyLowerS k ∈ TRANSPORT_KEYS
    · simp only [stripPairs, if_pos h]
      exact stripPairs_free rest
    · simp only [stripPairs, if_neg h, transportFreePairs, Bool.and_eq_true]
      exact ⟨⟨by simpa using h, stripTransport_free v⟩, stripPairs_free rest⟩

end

/-- Values stored in a transport-free dict are transport-free. -/
theorem transportFreePairs_mem {kvs : List (String × PyVal)} {k : String} {v : PyVal}
    (hfree : transportFreePairs kvs = true) (hm : (k, v) ∈ kvs) :
    transportFree v = true := by
  induction kvs with
  | nil => cases hm
  | cons p rest ih =>
    obtain ⟨k0, v0⟩ := p
    simp only [transportFreePairs, Bool.and_eq_true] at hfree
    cases hm with
    | head => exact hfree.1.2
    | tail _ hm => exact ih hfree.2 hm

/-- Looking a key up in a transport-free dict yields a transport-free
value. -/
theorem pyGet_free {kvs : List (String × PyVal)}
    (hfree : transportFreePairs kvs = true) (k : String) :
    transportFree (pyGet kvs k) = true := by
  unfold pyGet
  cases hf : kvs.find? (fun p => p.1 == k) with
  | none => rfl
  | some p =>
    obtain ⟨k0, v0⟩ := p
    exact transportFreePairs_mem hfree (List.mem_of_find?_eq_some hf)

/-- A Python or of transport-free values is transport-free. -/
theorem pyOr_free {a b : PyVal} (ha : transportFree a = true)
    (hb : transportFree b = true) : transportFree (pyOr a b) = true := by
  unfold pyOr
  split <;> assumption

/-- A successful category fetch makes the loop body succeed with the
built row. -/
theorem fetchCategoryRow_ok {api : Api} {cid : PyVal} {cat : String} {payload : PyVal}
    (h : api.get_category_gpa cid cat = .ok payload) :
    fetchCategoryRow api cid cat = .ok (buildCategoryRow payload cat) := by
  unfold fetchCategoryRow
  rw [h]
  rfl

/-- A successful category loop body comes from a successful fetch. -/
theorem fetchCategoryRow_ok_elim {api : Api} {cid : PyVal} {cat : String}
    {row : CategoryRow} (h : fetchCategoryRow api cid cat = .ok row) :
    ∃ payload, api.get_category_gpa cid cat = .ok payload ∧
      row = buildCategoryRow payload cat := by
  unfold fetchCategoryRow at h
  cases hp : api.get_category_gpa cid cat with
  | error e =>
    rw [hp] at h
    exact absurd h (fun hh => Except.noConfusion hh)
  | ok payload =>
    rw [hp] at h
    have h' : (Except.ok (buildCategoryRow payload cat) :
      Except BuildErr CategoryRow) = .ok row := h
    injection h' with h''
    exact ⟨payload, rfl, h''.symm⟩

/-- The category loop body never raises the missing-id error. -/
theorem fetchCategoryRow_ne_missing (api : Api) (cid : PyVal) (cat : String) :
    fetchCategoryRow api cid cat ≠ .error .missingId := by
  intro hh
  unfold fetchCategoryRow at hh
  cases hp : api.get_category_gpa cid cat with
  | error e =>
    rw [hp] at hh
    have h' : (Except.error BuildErr.fetch : Except BuildErr CategoryRow)
      = .error .missingId := hh
    injection h' with h''
    exact BuildErr.noConfusion h''
  | ok payload =>
    rw [hp] at hh
    exact Except.noConfusion hh

/-- A successful findings fetch makes the loop body succeed with the
normalized, popped, stripped rows. -/
theorem fetchFinding_ok {api : Api} {did : PyVal} {cat : String} {raw : PyVal}
    (h : api.get_findings_by_category did cat = .ok raw) :
    fetchFinding api did cat =
      .ok (cat, stripVals (((findingRows raw).filter isDictV).map popCategory)) := by
  unfold fetchFinding
  rw [h]
  rfl

/-- A successful findings loop body comes from a successful fetch. -/
theorem fetchFinding_ok_elim {api : Api} {did : PyVal} {cat : String}
    {p : String × List PyVal} (h : fetchFinding api did cat = .ok p) :
    ∃ raw, api.get_findings_by_category did cat = .ok raw ∧
      p = (cat, stripVals (((findingRows raw).filter isDictV).map popCategory)) := by
  unfold fetchFinding at h
  cases hp : api.get_findings_by_category did cat with
  | error e =>
    rw [hp] at h
    exact absurd h (fun hh => Except.noConfusion hh)
  | ok raw =>
    rw [hp] at h
    have h' : (Except.ok (cat, stripVals (((findingRows raw).filter isDictV).map
      popCategory)) : Except BuildErr (String × List PyVal)) = .ok p := h
    injection h' with h''
    exact ⟨raw, rfl, h''.symm⟩

/-- The findings loop body never raises the missing-id error. -/
theorem fetchFinding_ne_missing (api : Api) (did : PyVal) (cat : String) :
    fetchFinding api did cat ≠ .error .missingId := by
  intro hh
  unfold fetchFinding at hh
  cases hp : api.get_findings_by_category did cat with
  | error e =>
    rw [hp] at hh
    have h' : (Except.error BuildErr.fetch : Except BuildErr (String × List PyVal))
      = .error .missingId := hh
    injection h' with h''
    exact BuildErr.noConfusion h''
  | ok raw =>
    rw [hp] at hh
    exact Except.noConfusion hh

end PCP

namespace PCP

/-- When the findings loop succeeds, buildDomainRow succeeds and
returns the assembled row (the domain-score fetch may fail freely:
it only determines the fail-soft score field). -/
theorem buildDomainRow_ok {api : Api} {d : List (String × PyVal)}
    {fbc : List (String × List PyVal)}
    (hf : CATEGORY_NAMES.mapM (fetchFinding api
      (pyOr (pyGet d "domain_id") (pyOr (pyGet d "id") (pyGet d "domainId")))) = .ok fbc) :
    buildDomainRow api d = .ok
      { domain_id := pyOr (pyGet d "domain_id") (pyOr (pyGet d "id") (pyGet d "domainId")),
        domain_name := pyOr (pyGet d "domain_name") (pyOr (pyGet d "domain") (pyGet d "name")),
        domain_score :=
          match api.get_domain_score
            (pyOr (pyGet d "domain_id") (pyOr (pyGet d "id") (pyGet d "domainId"))) with
          | .error _ => none
          | .ok v => if isNoneV v then none else pyFloat v,
        findings_by_category := fbc } := by
  simp only [buildDomainRow]
  rw [hf]
  rfl

/-- buildDomainRow always succeeds when every findings fetch does. -/
theorem buildDomainRow_isOk {api : Api} {d : List (String × PyVal)}
    (hfind : ∀ did cat, cat ∈ CATEGORY_NAMES →
      ∃ r, api.get_findings_by_category did cat = .ok r) :
    ∃ dr, buildDomainRow api d = .ok dr := by
  obtain ⟨fbc, hfbc⟩ := mapM_isOk (fetchFinding api
      (pyOr (pyGet d "domain_id") (pyOr (pyGet d "id") (pyGet d "domainId"))))
      CATEGORY_NAMES (fun cat hc => by
        obtain ⟨r, hr⟩ := hfind _ cat hc
        exact ⟨_, fetchFinding_ok hr⟩)
  exact ⟨_, buildDomainRow_ok hfbc⟩

/-- Field-level consequences of a successful buildDomainRow. -/
theorem buildDomainRow_ok_elim {api : Api} {d : List (String × PyVal)}
    {dr : DomainRow} (h : buildDomainRow api d = .ok dr) :
    dr.domain_id = pyOr (pyGet d "domain_id") (pyOr (pyGet d "id") (pyGet d "domainId")) ∧
    dr.domain_name = pyOr (pyGet d "domain_name") (pyOr (pyGet d "domain") (pyGet d "name")) ∧
    (dr.domain_score =
      match api.get_domain_score dr.domain_id with
      | .error _ => none
      | .ok v => if isNoneV v then none else pyFloat v) ∧
    CATEGORY_NAMES.mapM (fetchFinding api dr.domain_id) = .ok dr.findings_by_category := by
  simp only [buildDomainRow] at h
  cases hm : CATEGORY_NAMES.mapM (fetchFinding api
      (pyOr (pyGet d "domain_id") (pyOr (pyGet d "id") (pyGet d "domainId")))) with
  | error e =>
    rw [hm] at h
    exact absurd h (fun hh => Except.noConfusion hh)
  | ok fbc =>
    rw [hm] at h
    have h' : (Except.ok
      { domain_id := pyOr (pyGet d "domain_id") (pyOr (pyGet d "id") (pyGet d "domainId")),
        domain_name := pyOr (pyGet d "domain_name") (pyOr (pyGet d "domain") (pyGet d "name")),
        domain_score :=
          match api.get_domain_score
            (pyOr (pyGet d "domain_id") (pyOr (pyGet d "id") (pyGet d "domainId"))) with
          | .error _ => none
          | .ok v => if isNoneV v then none else pyFloat v,
        findings_by_category := fbc } : Except BuildErr DomainRow) = .ok dr := h
    injection h' with h''
    subst h''
    exact ⟨rfl, rfl, rfl, hm⟩

/-- buildDomainRow never raises the missing-id error. -/
theorem buildDomainRow_ne_missing (api : Api) (d : List (String × PyVal)) :
    buildDomainRow api d ≠ .error .missingId := by
  intro hh
  simp only [buildDomainRow] at hh
  cases hm : CATEGORY_NAMES.mapM (fetchFinding api
      (pyOr (pyGet d "domain_id") (pyOr (pyGet d "id") (pyGet d "domainId")))) with
  | error e =>
    rw [hm] at hh
    have h' : (Except.error e : Except BuildErr DomainRow) = .error .missingId := hh
    injection h' with h''
    subst h''
    obtain ⟨cat, _, hfc⟩ := mapM_error_mem _ _ _ hm
    exact fetchFinding_ne_missing api _ cat hfc
  | ok fbc =>
    rw [hm] at hh
    exact Except.noConfusion hh

end PCP

namespace PCP

/-- build_company_bundle raises the missing-id error when the or-chain
over company_id and id resolves to None. -/
theorem build_eq_missing {api : Api} {now : String} {company : List (String × PyVal)}
    {all_domains : List (List (String × PyVal))}
    (hc : isNoneV (pyOr (pyGet company "company_id") (pyGet company "id")) = true) :
    build_company_bundle api now company all_domains = .error .missingId := by
  simp only [build_company_bundle]
  rw [if_pos hc]
  rfl

/-- A failing risk-grade fetch propagates out of build_company_bundle. -/
theorem build_eq_risk_error {api : Api} {now : String} {company : List (String × PyVal)}
    {all_domains : List (List (String × PyVal))} {e : Unit}
    (hc : isNoneV (pyOr (pyGet company "company_id") (pyGet company "id")) = false)
    (hr : api.get_company_risk_grade
      (pyOr (pyGet company "company_id") (pyGet company "id")) = .error e) :
    build_company_bundle api now company all_domains = .error .fetch := by
  simp only [build_company_bundle]
  rw [if_neg (by simp [hc]), hr]
  rfl

/-- A failing category loop propagates out of build_company_bundle. -/
theorem build_eq_cats_error {api : Api} {now : String} {company : List (String × PyVal)}
    {all_domains : List (List (String × PyVal))} {rg : PyVal} {e : BuildErr}
    (hc : isNoneV (pyOr (pyGet company "company_id") (pyGet company "id")) = false)
    (hr : api.get_company_risk_grade
      (pyOr (pyGet company "company_id") (pyGet company "id")) = .ok rg)
    (hcats : CATEGORY_NAMES.mapM (fetchCategoryRow api
      (pyOr (pyGet company "company_id") (pyGet company "id"))) = .error e) :
    build_company_bundle api now company all_domains = .error e := by
  simp only [build_company_bundle]
  rw [if_neg (by simp [hc]), hr, hcats]
  rfl

/-- A failing domain loop propagates out of build_company_bundle. -/
theorem build_eq_doms_error {api : Api} {now : String} {company : List (String × PyVal)}
    {all_domains : List (List (String × PyVal))} {rg : PyVal}
    {cats : List CategoryRow} {e : BuildErr}
    (hc : isNoneV (pyOr (pyGet company "company_id") (pyGet company "id")) = false)
    (hr : api.get_company_risk_grade
      (pyOr (pyGet company "company_id") (pyGet company "id")) = .ok rg)
    (hcats : CATEGORY_NAMES.mapM (fetchCategoryRow api
      (pyOr (pyGet company "company_id") (pyGet company "id"))) = .ok cats)
    (hdoms : ((all_domains.filter (fun d => pyStr (dcid d) ==
        pyStr (pyOr (pyGet company "company_id") (pyGet company "id")))).map
        stripPairs).mapM (buildDomainRow api) = .error e) :
    build_company_bundle api now company all_domains = .error e := by
  simp only [build_company_bundle]
  rw [if_neg (by simp [hc]), hr, hcats, hdoms]
  rfl

/-- When every stage succeeds, build_company_bundle returns the
assembled bundle. -/
theorem build_eq_ok {api : Api} {now : String} {company : List (String × PyVal)}
    {all_domains : List (List (String × PyVal))} {rg : PyVal}
    {cats : List CategoryRow} {doms : List DomainRow}
    (hc : isNoneV (pyOr (pyGet company "company_id") (pyGet company "id")) = false)
    (hr : api.get_company_risk_grade
      (pyOr (pyGet company "company_id") (pyGet company "id")) = .ok rg)
    (hcats : CATEGORY_NAMES.mapM (fetchCategoryRow api
      (pyOr (pyGet company "company_id") (pyGet company "id"))) = .ok cats)
    (hdoms : ((all_domains.filter (fun d => pyStr (dcid d) ==
        pyStr (pyOr (pyGet company "company_id") (pyGet company "id")))).map
        stripPairs).mapM (buildDomainRow api) = .ok doms) :
    build_company_bundle api now company all_domains = .ok
      { schema_version := 1, generated_at := now,
        company_id := pyOr (pyGet company "company_id") (pyGet company "id"),
        company := stripTransport (.vdict company),
        risk_grade := stripTransport (pyOr rg (.vdict [])),
        categories := cats, domains := doms } := by
  simp only [build_company_bundle]
  rw [if_neg (by simp [hc]), hr, hcats, hdoms]
  rfl

/-- Structural consequences of a successful build_company_bundle. -/
theorem build_ok_elim {api : Api} {now : String} {company : List (String × PyVal)}
    {all_domains : List (List (String × PyVal))} {b : Bundle}
    (h : build_company_bundle api now company all_domains = .ok b) :
    isNoneV (pyOr (pyGet company "company_id") (pyGet company "id")) = false ∧
    b.schema_version = 1 ∧ b.generated_at = now ∧
    b.company_id = pyOr (pyGet company "company_id") (pyGet company "id") ∧
    b.company = stripTransport (.vdict company) ∧
    (∃ rg, api.get_company_risk_grade b.company_id = .ok rg ∧
      b.risk_grade = stripTransport (pyOr rg (.vdict []))) ∧
    CATEGORY_NAMES.mapM (fetchCategoryRow api b.company_id) = .ok b.categories ∧
    ((all_domains.filter (fun d => pyStr (dcid d) == pyStr b.company_id)).map
      stripPairs).mapM (buildDomainRow api) = .ok b.domains := by
  by_cases hc : isNoneV (pyOr (pyGet company "company_id") (pyGet company "id")) = true
  · rw [build_eq_missing hc] at h
    exact absurd h (fun hh => Except.noConfusion hh)
  · have hc' : isNoneV (pyOr (pyGet company "company_id") (pyGet company "id")) = false := by
      simpa using hc
    cases hr : api.get_company_risk_grade
        (pyOr (pyGet company "company_id") (pyGet company "id")) with
    | error e =>
      rw [build_eq_risk_error hc' hr] at h
      exact absurd h (fun hh => Except.noConfusion hh)
    | ok rg =>
      cases hcats : CATEGORY_NAMES.mapM (fetchCategoryRow api
          (pyOr (pyGet company "company_id") (pyGet company "id"))) with
      | error e =>
        rw [build_eq_cats_error hc' hr hcats] at h
        exact absurd h (fun hh => Except.noConfusion hh)
      | ok cats =>
        cases hdoms : ((all_domains.filter (fun d => pyStr (dcid d) ==
            pyStr (pyOr (pyGet company "company_id") (pyGet company "id")))).map
            stripPairs).mapM (buildDomainRow api) with
        | error e =>
          rw [build_eq_doms_error hc' hr hcats hdoms] at h
          exact absurd h (fun hh => Except.noConfusion hh)
        | ok doms =>
          rw [build_eq_ok hc' hr hcats hdoms] at h
          injection h with h''
          subst h''
          exact ⟨hc', rfl, rfl, rfl, rfl, ⟨rg, hr, rfl⟩, hcats, hdoms⟩

end PCP

namespace PCP

/-- None of the six canonical category names is empty. -/
theorem cat_ne_empty : ∀ c ∈ CATEGORY_NAMES, c ≠ "" := by decide

/-- For an empty or non-tabular category payload, buildCategoryRow
yields the canonical name and all-null fields. -/
theorem buildCategoryRow_nonTabular (cat : String) (hcat : cat ≠ "") (payload : PyVal)
    (h : isDictV (resolvedRow payload) = false) :
    buildCategoryRow payload cat = ⟨.vstr cat, none, none, .vnone⟩ := by
  have hd : pyTruthy (.vstr cat) = true := by simp [pyTruthy, hcat]
  cases hr : resolvedRow payload with
  | vdict kvs =>
    rw [hr] at h
    simp [isDictV] at h
  | vnone => simp [buildCategoryRow, hr, pyGet, List.find?, pyOr, hd, isNoneV]
  | vbool b => simp [buildCategoryRow, hr, pyGet, List.find?, pyOr, hd, isNoneV]
  | vnum q => simp [buildCategoryRow, hr, pyGet, List.find?, pyOr, hd, isNoneV]
  | vstr s => simp [buildCategoryRow, hr, pyGet, List.find?, pyOr, hd, isNoneV]
  | vlist xs => simp [buildCategoryRow, hr, pyGet, List.find?, pyOr, hd, isNoneV]

end PCP

/-- C1 counterexample: with a stub API whose category-GPA fetch raises
for Attack Surface and succeeds elsewhere (and every other fetch
succeeding), build_company_bundle propagates the failure instead of
returning a bundle with that category nulled: the claim that any
single sub-fetch failure is absorbed is false. -/
theorem c1_single_fetch_failure_counterexample :
    PCP.build_company_bundle PCP.apiCatFail "t" [("company_id", .vnum 1)] []
      = .error .fetch := rfl

/-- C1 amended: only the domain-score fetch is absorbed.  When the
risk-grade fetch, every category-GPA fetch and every findings fetch
succeed, the build returns a bundle regardless of domain-score
failures, and a domain whose score fetch failed gets a null score;
a failing risk-grade, category-GPA or findings fetch propagates
(see the counterexample). -/
theorem c1_partial_failure_amended :
    ∀ (api : PCP.Api) (now : String) (company : List (String × PCP.PyVal))
      (all_domains : List (List (String × PCP.PyVal))),
      PCP.isNoneV (PCP.pyOr (PCP.pyGet company "company_id")
        (PCP.pyGet company "id")) = false →
      (∃ rg, api.get_company_risk_grade (PCP.pyOr (PCP.pyGet company "company_id")
        (PCP.pyGet company "id")) = .ok rg) →
      (∀ cid cat, cat ∈ PCP.CATEGORY_NAMES →
        ∃ p, api.get_category_gpa cid cat = .ok p) →
      (∀ did cat, cat ∈ PCP.CATEGORY_NAMES →
        ∃ r, api.get_findings_by_category did cat = .ok r) →
      ∃ b, PCP.build_company_bundle api now company all_domains = .ok b ∧
        ∀ dr ∈ b.domains, ∀ e, api.get_domain_score dr.domain_id = .error e →
          dr.domain_score = none := by
  intro api now company all_domains hc hrg hgpa hfind
  obtain ⟨rg, hr⟩ := hrg
  obtain ⟨cats, hcats⟩ := PCP.mapM_isOk (PCP.fetchCategoryRow api
      (PCP.pyOr (PCP.pyGet company "company_id") (PCP.pyGet company "id")))
      PCP.CATEGORY_NAMES (fun cat hcmem => by
        obtain ⟨p, hp⟩ := hgpa _ cat hcmem
        exact ⟨_, PCP.fetchCategoryRow_ok hp⟩)
  obtain ⟨doms, hdoms⟩ := PCP.mapM_isOk (PCP.buildDomainRow api)
      ((all_domains.filter (fun d => PCP.pyStr (PCP.dcid d) ==
        PCP.pyStr (PCP.pyOr (PCP.pyGet company "company_id")
          (PCP.pyGet company "id")))).map PCP.stripPairs)
      (fun d _ => PCP.buildDomainRow_isOk hfind)
  refine ⟨_, PCP.build_eq_ok hc hr hcats hdoms, ?_⟩
  intro dr hdr e hde
  have hf2 := PCP.mapM_ok_forall₂ _ _ _ hdoms
  obtain ⟨d, -, hdd⟩ := PCP.forall₂_mem_right hf2 dr hdr
  obtain ⟨-, -, hscore, -⟩ := PCP.buildDomainRow_ok_elim hdd
  rw [hscore, hde]

/-- C1 witness: concrete build with an always-failing domain-score
fetch succeeds, and the domain rows all carry a null score. -/
theorem c1_partial_failure_witness :
    (PCP.bundleOrEmpty (PCP.build_company_bundle PCP.apiDomainScoreFail "t"
      [("company_id", .vnum 1)]
      [[("company_id", .vnum 1), ("domain_id", .vnum 42)]])).domains.all
      (fun dr => decide (dr.domain_score = none)) = true := by
  obtain ⟨b, hb⟩ : ∃ b, PCP.build_company_bundle PCP.apiDomainScoreFail "t"
      [("company_id", .vnum 1)]
      [[("company_id", .vnum 1), ("domain_id", .vnum 42)]] = .ok b := ⟨_, rfl⟩
  obtain ⟨b2, hb2, hnull⟩ := c1_partial_failure_amended PCP.apiDomainScoreFail "t"
    [("company_id", .vnum 1)] [[("company_id", .vnum 1), ("domain_id", .vnum 42)]]
    rfl ⟨.vnone, rfl⟩ (fun _ _ _ => ⟨.vnone, rfl⟩) (fun _ _ _ => ⟨.vnone, rfl⟩)
  rw [hb2]
  exact List.all_eq_true.mpr (fun dr hdr =>
    decide_eq_true (hnull dr hdr () rfl))

/-- C4 counterexample: a company record that CONTAINS the company_id
key with the falsy value 0 (and no id key) still aborts with the
missing-identifier error, because the source resolves the id with a
truthiness or-chain, refuting the claimed key-presence iff. -/
theorem c4_missing_id_counterexample :
    PCP.build_company_bundle (PCP.apiConst .vnone) "t"
      [("company_id", .vnum 0)] [] = .error .missingId ∧
    (List.find? (fun p => p.1 == "company_id")
      [("company_id", PCP.PyVal.vnum 0)]).isSome = true :=
  ⟨rfl, rfl⟩

/-- C4 amended: build_company_bundle fails with the missing-identifier
error iff the Python expression company.get("company_id") or
company.get("id") is None, i.e. iff company_id is absent or falsy AND
id is absent or None; when it proceeds, that or-chain value is the
bundle's company identifier. -/
theorem c4_missing_id_amended :
    ∀ (api : PCP.Api) (now : String) (company : List (String × PCP.PyVal))
      (all_domains : List (List (String × PCP.PyVal))),
      (PCP.build_company_bundle api now company all_domains = .error .missingId ↔
        PCP.isNoneV (PCP.pyOr (PCP.pyGet company "company_id")
          (PCP.pyGet company "id")) = true) ∧
      ∀ b, PCP.build_company_bundle api now company all_domains = .ok b →
        b.company_id = PCP.pyOr (PCP.pyGet company "company_id")
          (PCP.pyGet company "id") := by
  intro api now company all_domains
  constructor
  · constructor
    · intro h
      by_contra hc
      have hc' : PCP.isNoneV (PCP.pyOr (PCP.pyGet company "company_id")
          (PCP.pyGet company "id")) = false := by simpa using hc
      cases hr : api.get_company_risk_grade (PCP.pyOr
          (PCP.pyGet company "company_id") (PCP.pyGet company "id")) with
      | error e =>
        rw [PCP.build_eq_risk_error hc' hr] at h
        injection h with h''
        exact PCP.BuildErr.noConfusion h''
      | ok rg =>
        cases hcats : PCP.CATEGORY_NAMES.mapM (PCP.fetchCategoryRow api
            (PCP.pyOr (PCP.pyGet company "company_id") (PCP.pyGet company "id"))) with
        | error e =>
          rw [PCP.build_eq_cats_error hc' hr hcats] at h
          injection h with h''
          subst h''
          obtain ⟨cat, -, hfc⟩ := PCP.mapM_error_mem _ _ _ hcats
          exact PCP.fetchCategoryRow_ne_missing api _ cat hfc
        | ok cats =>
          cases hdoms : ((all_domains.filter (fun d => PCP.pyStr (PCP.dcid d) ==
              PCP.pyStr (PCP.pyOr (PCP.pyGet company "company_id")
                (PCP.pyGet company "id")))).map PCP.stripPairs).mapM
              (PCP.buildDomainRow api) with
          | error e =>
            rw [PCP.build_eq_doms_error hc' hr hcats hdoms] at h
            injection h with h''
            subst h''
            obtain ⟨d, -, hbd⟩ := PCP.mapM_error_mem _ _ _ hdoms
            exact PCP.buildDomainRow_ne_missing api d hbd
          | ok doms =>
            rw [PCP.build_eq_ok hc' hr hcats hdoms] at h
            exact Except.noConfusion h
    · intro h
      exact PCP.build_eq_missing h
  · intro b hb
    exact (PCP.build_ok_elim hb).2.2.2.1

/-- C4 witness: a record with only an id key builds, and the bundle's
company identifier is that id value. -/
theorem c4_missing_id_witness :
    (PCP.bundleOrEmpty (PCP.build_company_bundle (PCP.apiConst .vnone) "t"
      [("id", .vnum 3)] [])).company_id = .vnum 3 := by
  obtain ⟨b, hb⟩ : ∃ b, PCP.build_company_bundle (PCP.apiConst .vnone) "t"
      [("id", .vnum 3)] [] = .ok b := ⟨_, rfl⟩
  have h2 := (c4_missing_id_amended (PCP.apiConst .vnone) "t"
    [("id", .vnum 3)] []).2 b hb
  rw [hb]
  show b.company_id = .vnum 3
  rw [h2]
  rfl

/-- C5 counterexample: when the Attack Surface response names a
different category, the successfully built bundle has zero records
named Attack Surface and two named Email Security among its six,
refuting "exactly one Category record per canonical name" for
arbitrary upstream responses. -/
theorem c5_exactly_one_counterexample :
    (PCP.build_company_bundle PCP.apiRename "t" [("company_id", .vnum 7)] []).isOk
      = true ∧
    (PCP.bundleOrEmpty (PCP.build_company_bundle PCP.apiRename "t"
      [("company_id", .vnum 7)] [])).categories.length = 6 ∧
    ((PCP.bundleOrEmpty (PCP.build_company_bundle PCP.apiRename "t"
      [("company_id", .vnum 7)] [])).categories.filter
      (fun r => PCP.pyEq r.category (.vstr "Attack Surface"))).length = 0 ∧
    ((PCP.bundleOrEmpty (PCP.build_company_bundle PCP.apiRename "t"
      [("company_id", .vnum 7)] [])).categories.filter
      (fun r => PCP.pyEq r.category (.vstr "Email Security"))).length = 2 :=
  ⟨rfl, rfl, rfl, rfl⟩

/-- C5 amended: every successful build has exactly six category
records, positionally one per canonical name in the fixed order; a
record whose upstream payload is empty or non-tabular carries the
canonical name and null gpa, score and timestamp.  (When a payload
supplies its own Category name, that name is stored instead, which is
what the counterexample exploits.) -/
theorem c5_categories_amended :
    ∀ (api : PCP.Api) (now : String) (company : List (String × PCP.PyVal))
      (all_domains : List (List (String × PCP.PyVal))) (b : PCP.Bundle),
      PCP.build_company_bundle api now company all_domains = .ok b →
      b.categories.length = PCP.CATEGORY_NAMES.length ∧
      ∀ p ∈ PCP.CATEGORY_NAMES.zip b.categories,
        ∀ payload, api.get_category_gpa b.company_id p.1 = .ok payload →
          PCP.isDictV (PCP.resolvedRow payload) = false →
          p.2 = ⟨.vstr p.1, none, none, .vnone⟩ := by
  intro api now company all_domains b hb
  have hcats := (PCP.build_ok_elim hb).2.2.2.2.2.2.1
  have hf2 := PCP.mapM_ok_forall₂ _ _ _ hcats
  refine ⟨hf2.length_eq.symm, ?_⟩
  intro p hp payload hpay hnd
  obtain ⟨c, row⟩ := p
  have hR := PCP.forall₂_mem_zip hf2 (c, row) hp
  obtain ⟨payload2, hpay2, hrow⟩ := PCP.fetchCategoryRow_ok_elim hR
  rw [hpay] at hpay2
  injection hpay2 with he
  subst he
  rw [hrow]
  exact PCP.buildCategoryRow_nonTabular c
    (PCP.cat_ne_empty c (List.of_mem_zip hp).1) payload hnd

/-- C5 witness: a concrete build whose every category payload is empty
yields six records, each carrying its canonical name. -/
theorem c5_categories_witness :
    (PCP.bundleOrEmpty (PCP.build_company_bundle (PCP.apiConst .vnone) "t"
      [("company_id", .vnum 1)] [])).categories.length
      = PCP.CATEGORY_NAMES.length ∧
    (PCP.CATEGORY_NAMES.zip (PCP.bundleOrEmpty (PCP.build_company_bundle
      (PCP.apiConst .vnone) "t" [("company_id", .vnum 1)] [])).categories).all
      (fun p => PCP.pyEq p.2.category (.vstr p.1)) = true := by
  obtain ⟨b, hb⟩ : ∃ b, PCP.build_company_bundle (PCP.apiConst .vnone) "t"
      [("company_id", .vnum 1)] [] = .ok b := ⟨_, rfl⟩
  have h := c5_categories_amended (PCP.apiConst .vnone) "t"
    [("company_id", .vnum 1)] [] b hb
  rw [hb]
  refine ⟨h.1, ?_⟩
  refine List.all_eq_true.mpr ?_
  intro p hp
  have hrow := h.2 p hp .vnone rfl rfl
  rw [hrow]
  simp [PCP.pyEq]

/-- C6: in every bundle returned by build_company_bundle, the company
record, the risk grade, and the domain rows (identifier, display name
and every finding row) are free of transport keys (href, links, link,
rel, case-insensitively) at every nesting depth, as claimed. -/
theorem c6_strip_transport :
    ∀ (api : PCP.Api) (now : String) (company : List (String × PCP.PyVal))
      (all_domains : List (List (String × PCP.PyVal))) (b : PCP.Bundle),
      PCP.build_company_bundle api now company all_domains = .ok b →
      PCP.transportFree b.company = true ∧
      PCP.transportFree b.risk_grade = true ∧
      ∀ dr ∈ b.domains,
        PCP.transportFree dr.domain_id = true ∧
        PCP.transportFree dr.domain_name = true ∧
        ∀ p ∈ dr.findings_by_category, PCP.transportFreeVals p.2 = true := by
  intro api now company all_domains b hb
  obtain ⟨-, -, -, -, hcomp, ⟨rg, -, hrisk⟩, -, hdoms⟩ := PCP.build_ok_elim hb
  refine ⟨by rw [hcomp]; exact PCP.stripTransport_free _,
    by rw [hrisk]; exact PCP.stripTransport_free _, ?_⟩
  intro dr hdr
  have hf2 := PCP.mapM_ok_forall₂ _ _ _ hdoms
  obtain ⟨d, hdmem, hdd⟩ := PCP.forall₂_mem_right hf2 dr hdr
  obtain ⟨d0, -, hd0⟩ := List.mem_map.mp hdmem
  obtain ⟨hid, hname, -, hfbc⟩ := PCP.buildDomainRow_ok_elim hdd
  have hdfree : PCP.transportFreePairs d = true := by
    rw [← hd0]; exact PCP.stripPairs_free d0
  refine ⟨?_, ?_, ?_⟩
  · rw [hid]
    exact PCP.pyOr_free (PCP.pyGet_free hdfree _)
      (PCP.pyOr_free (PCP.pyGet_free hdfree _) (PCP.pyGet_free hdfree _))
  · rw [hname]
    exact PCP.pyOr_free (PCP.pyGet_free hdfree _)
      (PCP.pyOr_free (PCP.pyGet_free hdfree _) (PCP.pyGet_free hdfree _))
  · intro p hp
    have hf3 := PCP.mapM_ok_forall₂ _ _ _ hfbc
    obtain ⟨cat, -, hcf⟩ := PCP.forall₂_mem_right hf3 p hp
    obtain ⟨raw, -, hpe⟩ := PCP.fetchFinding_ok_elim hcf
    rw [hpe]
    exact PCP.stripVals_free _

/-- C6 witness: a concrete build whose company, risk grade and finding
rows arrive laden with transport keys produces a bundle whose stored
structures are transport-free. -/
theorem c6_strip_transport_witness :
    PCP.transportFree (PCP.bundleOrEmpty (PCP.build_company_bundle PCP.apiHref "t"
      PCP.companyW6 PCP.domainsW6)).company = true ∧
    PCP.transportFree (PCP.bundleOrEmpty (PCP.build_company_bundle PCP.apiHref "t"
      PCP.companyW6 PCP.domainsW6)).risk_grade = true ∧
    (PCP.bundleOrEmpty (PCP.build_company_bundle PCP.apiHref "t"
      PCP.companyW6 PCP.domainsW6)).domains.all (fun dr =>
      PCP.transportFree dr.domain_id &&
      (PCP.transportFree dr.domain_name &&
        dr.findings_by_category.all (fun p => PCP.transportFreeVals p.2))) = true := by
  obtain ⟨b, hb⟩ : ∃ b, PCP.build_company_bundle PCP.apiHref "t"
      PCP.companyW6 PCP.domainsW6 = .ok b := ⟨_, rfl⟩
  have h := c6_strip_transport PCP.apiHref "t" PCP.companyW6 PCP.domainsW6 b hb
  rw [hb]
  refine ⟨h.1, h.2.1, ?_⟩
  refine List.all_eq_true.mpr ?_
  intro dr hdr
  have h3 := h.2.2 dr hdr
  rw [Bool.and_eq_true, Bool.and_eq_true]
  exact ⟨h3.1, h3.2.1, List.all_eq_true.mpr (fun p hp => h3.2.2 p hp)⟩

namespace PCP

/-- Char.ofNat below the surrogate range keeps its code point. -/
theorem toNat_ofNat_small {n : Nat} (h : n < 55296) : (Char.ofNat n).toNat = n := by
  unfold Char.ofNat
  rw [dif_pos (Or.inl (by omega : n < 0xd800))]
  rfl

/-- The code point of upChar. -/
theorem upChar_toNat (c : Char) :
    (upChar c).toNat =
      if 97 ≤ c.toNat ∧ c.toNat ≤ 122 then c.toNat - 32 else c.toNat := by
  unfold upChar
  split
  · rename_i h
    exact toNat_ofNat_small (by omega)
  · rfl

/-- The ASCII uppercase map is idempotent. -/
theorem upChar_idem (c : Char) : upChar (upChar c) = upChar c := by
  have e : ∀ x : Char, upChar x =
      if 97 ≤ x.toNat ∧ x.toNat ≤ 122 then Char.ofNat (x.toNat - 32) else x :=
    fun x => rfl
  by_cases h : 97 ≤ c.toNat ∧ c.toNat ≤ 122
  · have h1 : (upChar c).toNat = c.toNat - 32 := by rw [upChar_toNat, if_pos h]
    rw [e (upChar c), if_neg (by omega)]
  · have h2 : upChar c = c := by rw [e c, if_neg h]
    rw [h2]
    exact h2

end PCP

namespace PCP

/-- Members of the stripped list are members of the list. -/
theorem mem_strip {c : Char} {l : List Char} (h : c ∈ strip l) : c ∈ l := by
  unfold strip rstrip lstrip at h
  rw [List.mem_reverse] at h
  have h2 := (@List.dropWhile_sublist Char
    ((List.dropWhile Char.isWhitespace l).reverse) Char.isWhitespace).subset h
  rw [List.mem_reverse] at h2
  exact (List.dropWhile_sublist Char.isWhitespace).subset h2

/-- Members of dotify are dots or original members. -/
theorem mem_dotify {c : Char} {l : List Char} (h : c ∈ dotify l) :
    c = '.' ∨ c ∈ l := by
  unfold dotify replaceChar at h
  rw [List.mem_map] at h
  obtain ⟨b, hb, hbc⟩ := h
  rw [List.mem_map] at hb
  obtain ⟨a, ha, hab⟩ := hb
  by_cases h1 : b = '-'
  · left; rw [← hbc, if_pos h1]
  · rw [← hbc, if_neg h1]
    by_cases h2 : a = '_'
    · left; rw [← hab, if_pos h2]
    · right; rw [← hab, if_neg h2]; exact ha

/-- dotify never produces a dash. -/
theorem no_dash_dotify (l : List Char) : '-' ∉ dotify l := by
  intro h
  unfold dotify replaceChar at h
  rw [List.mem_map] at h
  obtain ⟨b, -, hbc⟩ := h
  by_cases h1 : b = '-'
  · rw [if_pos h1] at hbc; exact absurd hbc (by decide)
  · rw [if_neg h1] at hbc; exact h1 hbc

/-- dotify never produces an underscore. -/
theorem no_underscore_dotify (l : List Char) : '_' ∉ dotify l := by
  intro h
  unfold dotify replaceChar at h
  rw [List.mem_map] at h
  obtain ⟨b, hb, hbc⟩ := h
  rw [List.mem_map] at hb
  obtain ⟨a, -, hab⟩ := hb
  by_cases h1 : b = '-'
  · rw [if_pos h1] at hbc; exact absurd hbc (by decide)
  · rw [if_neg h1] at hbc
    subst hbc
    by_cases h2 : a = '_'
    · rw [if_pos h2] at hab; exact absurd hab (by decide)
    · rw [if_neg h2] at hab; exact h2 hab

/-- dotify is the identity on dash-free underscore-free lists. -/
theorem dotify_eq_self {l : List Char} (h1 : '-' ∉ l) (h2 : '_' ∉ l) :
    dotify l = l := by
  unfold dotify replaceChar
  rw [List.map_map]
  conv_rhs => rw [← List.map_id l]
  refine List.map_congr_left ?_
  intro a ha
  have ha1 : a ≠ '_' := fun hh => h2 (hh ▸ ha)
  have ha2 : a ≠ '-' := fun hh => h1 (hh ▸ ha)
  simp [Function.comp, if_neg ha1, if_neg ha2]

/-- Members of zfill2 are zero-padding or original members. -/
theorem mem_zfill2 {c : Char} {l : List Char} (h : c ∈ zfill2 l) :
    c = '0' ∨ c ∈ l := by
  unfold zfill2 at h
  split at h
  · right; exact h
  · rw [List.mem_append] at h
    rcases h with h | h
    · left; exact List.eq_of_mem_replicate h
    · right; exact h

end PCP

namespace PCP

/-- One replace pass never lengthens the list. -/
theorem length_replaceDD_le : (l : List Char) → (replaceDD l).length ≤ l.length
  | [] => le_rfl
  | [c] => le_rfl
  | c1 :: c2 :: rest => by
    unfold replaceDD
    split
    · have := length_replaceDD_le rest
      simp only [List.length_cons]
      omega
    · have := length_replaceDD_le (c2 :: rest)
      simp only [List.length_cons] at *
      omega

/-- One replace pass on a list containing ".." strictly shortens it. -/
theorem length_replaceDD_lt : (l : List Char) → hasDD l = true →
    (replaceDD l).length < l.length
  | [] => by simp [hasDD]
  | [c] => by simp [hasDD]
  | c1 :: c2 :: rest => by
    intro h
    unfold replaceDD
    split
    · have := length_replaceDD_le rest
      simp only [List.length_cons]
      omega
    · rename_i hdd
      have h2 : hasDD (c2 :: rest) = true := by
        unfold hasDD at h
        rw [Bool.or_eq_true] at h
        rcases h with h1 | h1
        · rw [Bool.and_eq_true, decide_eq_true_eq, decide_eq_true_eq] at h1
          exact absurd h1 hdd
        · exact h1
      have := length_replaceDD_lt (c2 :: rest) h2
      simp only [List.length_cons] at *
      omega

/-- Members of one replace pass are original members. -/
theorem mem_replaceDD : (l : List Char) → ∀ c ∈ replaceDD l, c ∈ l
  | [] => by simp [replaceDD]
  | [c0] => by simp [replaceDD]
  | c1 :: c2 :: rest => by
    intro c hc
    unfold replaceDD at hc
    split at hc
    · rename_i hdd
      rw [List.mem_cons] at hc
      rcases hc with rfl | hc
      · rw [List.mem_cons]; left; exact hdd.1.symm
      · exact List.mem_cons_of_mem _ (List.mem_cons_of_mem _ (mem_replaceDD rest c hc))
    · rw [List.mem_cons] at hc
      rcases hc with rfl | hc
      · exact List.mem_cons_self _ _
      · exact List.mem_cons_of_mem _ (mem_replaceDD (c2 :: rest) c hc)

/-- One replace pass preserves the head. -/
theorem head?_replaceDD : (l : List Char) → (replaceDD l).head? = l.head?
  | [] => rfl
  | [c] => rfl
  | c1 :: c2 :: rest => by
    unfold replaceDD
    split
    · rename_i hdd
      simp [hdd.1]
    · rfl

/-- With enough fuel the collapse loop reaches a fixpoint. -/
theorem collapseLoop_hasDD : ∀ (n : Nat) (l : List Char), l.length ≤ n →
    hasDD (collapseLoop n l) = false := by
  intro n
  induction n with
  | zero =>
    intro l h
    have : l = [] := List.length_eq_zero.mp (Nat.le_zero.mp h)
    subst this
    rfl
  | succ n ih =>
    intro l h
    unfold collapseLoop
    split
    · rename_i hdd
      exact ih _ (by have := length_replaceDD_lt l hdd; omega)
    · rename_i hdd
      simpa using hdd

/-- The collapsed list has no adjacent dots. -/
theorem hasDD_collapse (l : List Char) : hasDD (collapse l) = false :=
  collapseLoop_hasDD l.length l le_rfl

/-- Collapsing a list without adjacent dots is the identity. -/
theorem collapse_eq_self {l : List Char} (h : hasDD l = false) : collapse l = l := by
  unfold collapse
  cases hn : l.length with
  | zero => rfl
  | succ n =>
    unfold collapseLoop
    rw [if_neg (by simp [h])]

/-- Members of the collapse loop output are original members. -/
theorem mem_collapseLoop : ∀ (n : Nat) (l : List Char) (c : Char),
    c ∈ collapseLoop n l → c ∈ l := by
  intro n
  induction n with
  | zero => intro l c h; exact h
  | succ n ih =>
    intro l c h
    unfold collapseLoop at h
    split at h
    · exact mem_replaceDD l c (ih _ c h)
    · exact h

/-- Members of the collapsed list are original members. -/
theorem mem_collapse {c : Char} {l : List Char} (h : c ∈ collapse l) : c ∈ l :=
  mem_collapseLoop l.length l c h

/-- The collapse loop preserves the head. -/
theorem head?_collapseLoop : ∀ (n : Nat) (l : List Char),
    (collapseLoop n l).head? = l.head? := by
  intro n
  induction n with
  | zero => intro l; rfl
  | succ n ih =>
    intro l
    unfold collapseLoop
    split
    · rw [ih, head?_replaceDD]
    · rfl

/-- Collapsing preserves the head. -/
theorem head?_collapse (l : List Char) : (collapse l).head? = l.head? :=
  head?_collapseLoop l.length l

end PCP

namespace PCP

/-- splitDots never returns the empty list of segments. -/
theorem splitDots_ne_nil : (l : List Char) → splitDots l ≠ []
  | [] => by simp [splitDots]
  | c :: rest => by
    unfold splitDots
    split
    · simp
    · split
      · simp
      · simp

/-- Segments produced by splitDots contain no dot. -/
theorem not_dot_splitDots : (l : List Char) → ∀ seg ∈ splitDots l, '.' ∉ seg
  | [] => by
    intro seg hseg
    simp only [splitDots, List.mem_singleton] at hseg
    subst hseg
    simp
  | c :: rest => by
    intro seg hseg
    unfold splitDots at hseg
    split at hseg
    · rw [List.mem_cons] at hseg
      rcases hseg with rfl | hseg
      · simp
      · exact not_dot_splitDots rest seg hseg
    · rename_i hc
      cases hm : splitDots rest with
      | nil => exact absurd hm (splitDots_ne_nil rest)
      | cons seg0 segs =>
        rw [hm] at hseg
        rw [List.mem_cons] at hseg
        rcases hseg with rfl | hseg
        · intro hdot
          rw [List.mem_cons] at hdot
          rcases hdot with h1 | h1
          · exact hc h1.symm
          · refine not_dot_splitDots rest seg0 ?_ h1
            rw [hm]
            exact List.mem_cons_self seg0 segs
        · refine not_dot_splitDots rest seg ?_
          rw [hm]
          exact List.mem_cons_of_mem seg0 hseg

/-- Characters inside splitDots segments come from the input. -/
theorem mem_of_mem_splitDots :
    (l : List Char) → ∀ seg ∈ splitDots l, ∀ c ∈ seg, c ∈ l
  | [] => by
    intro seg hseg
    simp only [splitDots, List.mem_singleton] at hseg
    subst hseg
    simp
  | a :: rest => by
    intro seg hseg c hc
    unfold splitDots at hseg
    split at hseg
    · rw [List.mem_cons] at hseg
      rcases hseg with rfl | hseg
      · cases hc
      · exact List.mem_cons_of_mem _ (mem_of_mem_splitDots rest seg hseg c hc)
    · cases hm : splitDots rest with
      | nil => exact absurd hm (splitDots_ne_nil rest)
      | cons seg0 segs =>
        rw [hm] at hseg
        rw [List.mem_cons] at hseg
        rcases hseg with rfl | hseg
        · rw [List.mem_cons] at hc
          rcases hc with rfl | hc
          · exact List.mem_cons_self _ _
          · refine List.mem_cons_of_mem _ (mem_of_mem_splitDots rest seg0 ?_ c hc)
            rw [hm]
            exact List.mem_cons_self seg0 segs
        · refine List.mem_cons_of_mem _ (mem_of_mem_splitDots rest seg ?_ c hc)
          rw [hm]
          exact List.mem_cons_of_mem seg0 hseg

end PCP

namespace PCP

/-- Dropping leading whitespace from a list whose head is not
whitespace is the identity. -/
theorem lstrip_eq_self {l : List Char} (h : noLeadWS l) : lstrip l = l := by
  unfold lstrip
  cases l with
  | nil => rfl
  | cons c rest =>
    have h' : c.isWhitespace = false := h
    rw [List.dropWhile_cons, if_neg (by simp [h'])]

/-- A dropWhile of whitespace has a non-whitespace head. -/
theorem noLeadWS_dropWhile (l : List Char) :
    noLeadWS (l.dropWhile Char.isWhitespace) := by
  induction l with
  | nil => trivial
  | cons c rest ih =>
    rw [List.dropWhile_cons]
    split
    · exact ih
    · rename_i h
      simpa [noLeadWS] using h

/-- rstrip is a prefix of its input. -/
theorem rstrip_sublist_of (l : List Char) : rstrip l <+: l := by
  unfold rstrip
  have h := @List.dropWhile_suffix Char l.reverse Char.isWhitespace
  rw [← List.reverse_prefix] at h
  simpa using h

/-- A prefix of a list with non-whitespace head keeps that property. -/
theorem noLeadWS_of_prefix {p l : List Char} (hp : p <+: l) (h : noLeadWS l) :
    noLeadWS p := by
  obtain ⟨t, rfl⟩ := hp
  cases p with
  | nil => trivial
  | cons c rest => exact h

/-- rstrip of a list with non-whitespace head keeps that property. -/
theorem noLeadWS_rstrip {l : List Char} (h : noLeadWS l) : noLeadWS (rstrip l) :=
  noLeadWS_of_prefix (rstrip_sublist_of l) h

/-- rstrip never ends in whitespace. -/
theorem noTrailWS_rstrip (l : List Char) : noTrailWS (rstrip l) := by
  unfold noTrailWS rstrip
  rw [List.reverse_reverse]
  exact noLeadWS_dropWhile l.reverse

/-- rstrip of a list not ending in whitespace is the identity. -/
theorem rstrip_eq_self {l : List Char} (h : noTrailWS l) : rstrip l = l := by
  unfold rstrip
  unfold noTrailWS at h
  rw [show List.dropWhile Char.isWhitespace l.reverse = l.reverse from
    lstrip_eq_self h, List.reverse_reverse]

/-- strip of an already-stripped list is the identity. -/
theorem strip_eq_self {l : List Char} (h1 : noLeadWS l) (h2 : noTrailWS l) :
    strip l = l := by
  unfold strip
  rw [show lstrip l = l from lstrip_eq_self h1]
  exact rstrip_eq_self h2

/-- The stripped list has a non-whitespace head. -/
theorem noLeadWS_strip (l : List Char) : noLeadWS (strip l) :=
  noLeadWS_rstrip (noLeadWS_dropWhile l)

/-- The stripped list does not end in whitespace. -/
theorem noTrailWS_strip (l : List Char) : noTrailWS (strip l) :=
  noTrailWS_rstrip (lstrip l)

/-- strip is idempotent. -/
theorem strip_idem (l : List Char) : strip (strip l) = strip l :=
  strip_eq_self (noLeadWS_strip l) (noTrailWS_strip l)

/-- A list of non-whitespace characters has a non-whitespace head. -/
theorem noLeadWS_of_mem {l : List Char}
    (h : ∀ c ∈ l, c.isWhitespace = false) : noLeadWS l := by
  cases l with
  | nil => trivial
  | cons c rest => exact h c (List.mem_cons_self c rest)

/-- A list of non-whitespace characters does not end in whitespace. -/
theorem noTrailWS_of_mem {l : List Char}
    (h : ∀ c ∈ l, c.isWhitespace = false) : noTrailWS l :=
  noLeadWS_of_mem (fun c hc => h c (List.mem_reverse.mp hc))

/-- strip is the identity on whitespace-free lists. -/
theorem strip_eq_self_of_mem {l : List Char}
    (h : ∀ c ∈ l, c.isWhitespace = false) : strip l = l :=
  strip_eq_self (noLeadWS_of_mem h) (noTrailWS_of_mem h)

/-- Appending preserves a non-whitespace head. -/
theorem noLeadWS_append {xs ys : List Char} (hx : noLeadWS xs)
    (hy : xs = [] → noLeadWS ys) : noLeadWS (xs ++ ys) := by
  cases xs with
  | nil => simpa using hy rfl
  | cons c rest => exact hx

end PCP

namespace PCP

/-- A digit character is not whitespace. -/
theorem not_ws_of_digit {c : Char} (h : c.isDigit = true) :
    c.isWhitespace = false := by
  by_cases h1 : c = ' '
  · subst h1; exact absurd h (by decide)
  by_cases h2 : c = '\t'
  · subst h2; exact absurd h (by decide)
  by_cases h3 : c = '\r'
  · subst h3; exact absurd h (by decide)
  by_cases h4 : c = '\n'
  · subst h4; exact absurd h (by decide)
  simp [Char.isWhitespace, h1, h2, h3, h4]

/-- In a purely numeric list every character is a digit. -/
theorem mem_pyIsDigit {l : List Char} (h : pyIsDigit l = true) :
    ∀ c ∈ l, c.isDigit = true := by
  unfold pyIsDigit at h
  rw [Bool.and_eq_true] at h
  exact List.all_eq_true.mp h.2

/-- zfill2 applied twice equals zfill2 applied once. -/
theorem zfill2_zfill2 (l : List Char) : zfill2 (zfill2 l) = zfill2 l := by
  unfold zfill2
  split
  · rfl
  · rename_i h
    rw [if_pos (by
      rw [List.length_append, List.length_replicate]
      omega)]

/-- zfill2 keeps a purely numeric list purely numeric. -/
theorem pyIsDigit_zfill2 {l : List Char} (h : pyIsDigit l = true) :
    pyIsDigit (zfill2 l) = true := by
  unfold pyIsDigit at h ⊢
  rw [Bool.and_eq_true] at h
  rw [Bool.and_eq_true]
  constructor
  · unfold zfill2
    split
    · exact h.1
    · rename_i hlen
      cases hcase : List.replicate (2 - l.length) '0' ++ l with
      | nil =>
        have hl := congrArg List.length hcase
        rw [List.length_append, List.length_replicate] at hl
        simp only [List.length_nil] at hl
        exact absurd hl (by omega)
      | cons x xs => rfl
  · rw [List.all_eq_true]
    intro c hc
    rcases mem_zfill2 hc with rfl | hc
    · decide
    · exact List.all_eq_true.mp h.2 c hc

/-- Stripping a purely numeric list is the identity. -/
theorem strip_pyIsDigit {l : List Char} (h : pyIsDigit l = true) :
    strip l = l :=
  strip_eq_self_of_mem (fun c hc => not_ws_of_digit (mem_pyIsDigit h c hc))

/-- The head of a nonempty takeWhile is the head of the list. -/
theorem head?_takeWhile_ne {q : Char → Bool} {l : List Char}
    (h : l.takeWhile q ≠ []) : (l.takeWhile q).head? = l.head? := by
  cases l with
  | nil => rfl
  | cons c rest =>
    rw [List.takeWhile_cons]
    rw [List.takeWhile_cons] at h
    split
    · rfl
    · rename_i hq
      rw [if_neg hq] at h
      exact absurd rfl h

/-- takeWhile of not-dash followed by dash and a tail recovers the
prefix. -/
theorem takeWhile_no_dash {p t : List Char} (hp : ∀ c ∈ p, c ≠ '-') :
    ((p ++ '-' :: t).takeWhile (· ≠ '-')) = p := by
  induction p with
  | nil => simp [List.takeWhile_cons]
  | cons a p ih =>
    rw [List.cons_append, List.takeWhile_cons,
      if_pos (by simp [hp a (List.mem_cons_self a p)]),
      ih (fun c hc => hp c (List.mem_cons_of_mem a hc))]

/-- dropWhile of not-dash followed by dash and a tail recovers the
dash and the tail. -/
theorem dropWhile_no_dash {p t : List Char} (hp : ∀ c ∈ p, c ≠ '-') :
    ((p ++ '-' :: t).dropWhile (· ≠ '-')) = '-' :: t := by
  induction p with
  | nil => simp [List.dropWhile_cons]
  | cons a p ih =>
    rw [List.cons_append, List.dropWhile_cons,
      if_pos (by simp [hp a (List.mem_cons_self a p)]),
      ih (fun c hc => hp c (List.mem_cons_of_mem a hc))]

/-- When a dash occurs in the list, dropWhile lands on it. -/
theorem dropWhile_dash_cons {s : List Char} (h : '-' ∈ s) :
    s.dropWhile (· ≠ '-') = '-' :: (s.dropWhile (· ≠ '-')).tail := by
  induction s with
  | nil => cases h
  | cons a s ih =>
    rw [List.dropWhile_cons]
    by_cases ha : a = '-'
    · subst ha
      simp
    · rw [if_pos (by simp [ha])]
      rw [List.mem_cons] at h
      rcases h with h1 | h1
      · exact absurd h1.symm ha
      · exact ih h1

end PCP

namespace PCP

/-- Dash-free lists have no adjacent dots pattern beyond their dots;
in particular a dot-free list has none. -/
theorem hasDD_no_dot : (l : List Char) → '.' ∉ l → hasDD l = false
  | [] => fun _ => rfl
  | [c] => fun _ => rfl
  | c1 :: c2 :: rest => fun h => by
    unfold hasDD
    have h1 : ¬ c1 = '.' := fun hh => h (hh ▸ List.mem_cons_self c1 (c2 :: rest))
    have h2 : '.' ∉ c2 :: rest := fun hm => h (List.mem_cons_of_mem c1 hm)
    rw [hasDD_no_dot (c2 :: rest) h2]
    simp [h1]

/-- Two dot-free lists joined by a single dot have no adjacent dots. -/
theorem hasDD_append_single :
    (p0 : List Char) → ∀ {p1 : List Char}, '.' ∉ p0 → '.' ∉ p1 →
      hasDD (p0 ++ '.' :: p1) = false
  | [], p1 => fun _ h1 => by
    cases p1 with
    | nil => rfl
    | cons c rest =>
      have hc : ¬ c = '.' := fun hh => h1 (hh ▸ List.mem_cons_self c rest)
      show hasDD ('.' :: c :: rest) = false
      unfold hasDD
      rw [hasDD_no_dot (c :: rest) h1]
      simp [hc]
  | [a], p1 => fun h0 h1 => by
    have ha : ¬ a = '.' := fun hh => h0 (hh ▸ List.mem_cons_self a [])
    show hasDD (a :: '.' :: p1) = false
    unfold hasDD
    rw [show hasDD ('.' :: p1) = false from hasDD_append_single [] (by simp) h1]
    simp [ha]
  | a :: b :: p0, p1 => fun h0 h1 => by
    have ha : ¬ a = '.' := fun hh => h0 (hh ▸ List.mem_cons_self a (b :: p0))
    have hb : '.' ∉ b :: p0 := fun hm => h0 (List.mem_cons_of_mem a hm)
    rw [List.cons_append, List.cons_append]
    unfold hasDD
    rw [show hasDD (b :: (p0 ++ '.' :: p1)) = false from
      hasDD_append_single (b :: p0) hb h1]
    simp [ha]

/-- The uppercased list is fixed by further uppercasing. -/
theorem upFixed_upper (l : List Char) : upFixed (upper l) := by
  intro c hc
  unfold upper at hc
  rw [List.mem_map] at hc
  obtain ⟨d, -, rfl⟩ := hc
  exact upChar_idem d

/-- upFixed restricts along subsets. -/
theorem upFixed_sub {l1 l2 : List Char} (hsub : ∀ c ∈ l1, c ∈ l2)
    (h : upFixed l2) : upFixed l1 :=
  fun c hc => h c (hsub c hc)

/-- Uppercasing a fixed list is the identity. -/
theorem upper_eq_self {l : List Char} (h : upFixed l) : upper l = l := by
  unfold upper
  conv_rhs => rw [← List.map_id l]
  exact List.map_congr_left h

/-- The stripped uppercased input is fixed under uppercasing. -/
theorem upFixed_strip_upper (l : List Char) : upFixed (strip (upper l)) :=
  upFixed_sub (fun _ hc => mem_strip hc) (upFixed_upper l)

/-- Members of the tail are members. -/
theorem mem_tail {c : Char} {l : List Char} (h : c ∈ l.tail) : c ∈ l :=
  (List.tail_sublist l).subset h

/-- The dash branch of normBody, written out. -/
theorem normBody_dash {u : List Char} (h : '-' ∈ u) :
    normBody u = collapse (dotify (u.takeWhile (· ≠ '-'))) ++ '-' ::
      (if pyIsDigit (strip ((u.dropWhile (· ≠ '-')).tail))
       then zfill2 (strip ((u.dropWhile (· ≠ '-')).tail))
       else strip ((u.dropWhile (· ≠ '-')).tail)) := by
  simp only [normBody, if_pos h]

/-- On a nonempty value fixed under upper and strip, normRefL is
normBody. -/
theorem normRefL_of_fixed {r : List Char} (hne : r ≠ []) (hup : upFixed r)
    (hlead : noLeadWS r) (htrail : noTrailWS r) :
    normRefL r = normBody r := by
  simp only [normRefL, if_neg hne]
  rw [upper_eq_self hup, strip_eq_self hlead htrail]

/-- normBody fixes a value of the shape prefix-dash-tail when the
prefix is dash- and underscore-free with no adjacent dots and the tail
is strip-fixed and zfill-fixed when numeric. -/
theorem dash_roundtrip {P T : List Char}
    (hPd : ∀ c ∈ P, c ≠ '-') (hPu : '_' ∉ P) (hPdd : hasDD P = false)
    (hT : strip T = T) (hTz : pyIsDigit T = true → zfill2 T = T) :
    normBody (P ++ '-' :: T) = P ++ '-' :: T := by
  have hmem : '-' ∈ P ++ '-' :: T :=
    List.mem_append_right _ (List.mem_cons_self _ _)
  rw [normBody_dash hmem, takeWhile_no_dash hPd, dropWhile_no_dash hPd]
  simp only [List.tail_cons]
  rw [dotify_eq_self (fun hc => (hPd '-' hc) rfl) hPu, collapse_eq_self hPdd, hT]
  by_cases hd : pyIsDigit T = true
  · rw [if_pos hd, hTz hd]
  · rw [if_neg hd]

end PCP

namespace PCP

/-- A value of the shape prefix-dash-tail with clean parts is a fixed
point of the whole normalizer. -/
theorem dash_fixed {P T : List Char}
    (hupP : upFixed P) (hupT : upFixed T)
    (hPd : ∀ c ∈ P, c ≠ '-') (hPu : '_' ∉ P) (hPdd : hasDD P = false)
    (hT : strip T = T) (hTz : pyIsDigit T = true → zfill2 T = T)
    (hTtrail : noTrailWS T)
    (hlead : noLeadWS (P ++ '-' :: T)) :
    normRefL (P ++ '-' :: T) = P ++ '-' :: T := by
  have hupr : upFixed (P ++ '-' :: T) := by
    intro c hc
    rw [List.mem_append] at hc
    rcases hc with hc | hc
    · exact hupP c hc
    · rw [List.mem_cons] at hc
      rcases hc with rfl | hc
      · decide
      · exact hupT c hc
  have htrail : noTrailWS (P ++ '-' :: T) := by
    unfold noTrailWS
    rw [List.reverse_append, List.reverse_cons, List.append_assoc]
    exact noLeadWS_append hTtrail
      (fun _ => (by decide : ('-' : Char).isWhitespace = false))
  have hne : P ++ '-' :: T ≠ [] := by
    intro hh
    have := congrArg List.length hh
    simp at this
  rw [normRefL_of_fixed hne hupr hlead htrail]
  exact dash_roundtrip hPd hPu hPdd hT hTz

/-- The normalizer body applied twice agrees with one application, for
inputs fixed under upper and strip, provided the first result does not
begin with whitespace. -/
theorem normBody_roundtrip {u : List Char} (hup : upFixed u) (hstr : strip u = u)
    (hlead : noLeadWS (normBody u)) : normRefL (normBody u) = normBody u := by
  by_cases hdash : '-' ∈ u
  · rw [normBody_dash hdash] at hlead ⊢
    refine dash_fixed ?_ ?_ ?_ ?_ (hasDD_collapse _) ?_ ?_ ?_ hlead
    · intro c hc
      rcases mem_dotify (mem_collapse hc) with rfl | hc2
      · decide
      · exact hup c ((List.takeWhile_sublist _).subset hc2)
    · intro c hc
      split at hc
      · rcases mem_zfill2 hc with rfl | hc2
        · decide
        · exact hup c ((List.dropWhile_sublist _).subset (mem_tail (mem_strip hc2)))
      · exact hup c ((List.dropWhile_sublist _).subset (mem_tail (mem_strip hc)))
    · exact fun c hc hceq => no_dash_dotify _ (hceq ▸ mem_collapse hc)
    · exact fun hc => no_underscore_dotify _ (mem_collapse hc)
    · split
      · rename_i hd
        exact strip_pyIsDigit (pyIsDigit_zfill2 hd)
      · exact strip_idem _
    · intro hd
      split at hd
      · rename_i hd0
        split
        · exact zfill2_zfill2 _
        · rename_i hcontra
          exact absurd hd0 hcontra
      · rename_i hd0
        exact absurd hd hd0
    · split
      · rename_i hd
        exact noTrailWS_of_mem (fun c hc =>
          not_ws_of_digit (mem_pyIsDigit (pyIsDigit_zfill2 hd) c hc))
      · exact noTrailWS_strip _
  · have hul : noLeadWS u := hstr ▸ noLeadWS_strip u
    have hut : noTrailWS u := hstr ▸ noTrailWS_strip u
    have fixedPath : normBody u = u → normRefL (normBody u) = normBody u := by
      intro hEq
      rw [hEq]
      by_cases hu : u = []
      · subst hu; rfl
      · rw [normRefL_of_fixed hu hup hul hut]
        exact hEq
    rcases hm : (splitDots (collapse (dotify u))).filter (· ≠ []) with
      _ | ⟨p0, _ | ⟨p1, _ | ⟨p2, rest⟩⟩⟩
    · exact fixedPath (by simp only [normBody, if_neg hdash, hm])
    · exact fixedPath (by simp only [normBody, if_neg hdash, hm])
    · exact fixedPath (by simp only [normBody, if_neg hdash, hm])
    · by_cases hd2 : pyIsDigit p2 = true
      · have hp0mem : p0 ∈ splitDots (collapse (dotify u)) :=
          List.mem_of_mem_filter (by rw [hm]; exact List.mem_cons_self _ _)
        have hp1mem : p1 ∈ splitDots (collapse (dotify u)) :=
          List.mem_of_mem_filter (by
            rw [hm]
            exact List.mem_cons_of_mem _ (List.mem_cons_self _ _))
        have hp2mem : p2 ∈ splitDots (collapse (dotify u)) :=
          List.mem_of_mem_filter (by
            rw [hm]
            exact List.mem_cons_of_mem _ (List.mem_cons_of_mem _
              (List.mem_cons_self _ _)))
        have hs2up : upFixed (collapse (dotify u)) := by
          intro c hc
          rcases mem_dotify (mem_collapse hc) with rfl | hc2
          · decide
          · exact hup c hc2
        have hs2d : ∀ c ∈ collapse (dotify u), c ≠ '-' :=
          fun c hc hceq => no_dash_dotify _ (hceq ▸ mem_collapse hc)
        have hs2u : ∀ c ∈ collapse (dotify u), c ≠ '_' :=
          fun c hc hceq => no_underscore_dotify _ (hceq ▸ mem_collapse hc)
        have hsub0 := mem_of_mem_splitDots _ p0 hp0mem
        have hsub1 := mem_of_mem_splitDots _ p1 hp1mem
        have hsub2 := mem_of_mem_splitDots _ p2 hp2mem
        have hdot0 : '.' ∉ p0 := not_dot_splitDots _ p0 hp0mem
        have hdot1 : '.' ∉ p1 := not_dot_splitDots _ p1 hp1mem
        have hEq : normBody u = (p0 ++ '.' :: p1) ++ '-' :: zfill2 p2 := by
          simp only [normBody, if_neg hdash, hm, if_pos hd2, List.append_assoc]
        rw [hEq] at hlead ⊢
        refine dash_fixed ?_ ?_ ?_ ?_ (hasDD_append_single p0 hdot0 hdot1)
          (strip_pyIsDigit (pyIsDigit_zfill2 hd2))
          (fun _ => zfill2_zfill2 _) ?_ hlead
        · intro c hc
          rw [List.mem_append] at hc
          rcases hc with hc | hc
          · exact hs2up c (hsub0 c hc)
          · rw [List.mem_cons] at hc
            rcases hc with rfl | hc
            · decide
            · exact hs2up c (hsub1 c hc)
        · intro c hc
          rcases mem_zfill2 hc with rfl | hc2
          · decide
          · exact hs2up c (hsub2 c hc2)
        · intro c hc hceq
          rw [List.mem_append] at hc
          rcases hc with hc | hc
          · exact hs2d c (hsub0 c hc) hceq
          · rw [List.mem_cons] at hc
            rcases hc with rfl | hc
            · exact absurd hceq (by decide)
            · exact hs2d c (hsub1 c hc) hceq
        · intro hc
          rw [List.mem_append] at hc
          rcases hc with hc | hc
          · exact hs2u '_' (hsub0 _ hc) rfl
          · rw [List.mem_cons] at hc
            rcases hc with hc | hc
            · exact absurd hc (by decide)
            · exact hs2u '_' (hsub1 _ hc) rfl
        · exact noTrailWS_of_mem (fun c hc =>
            not_ws_of_digit (mem_pyIsDigit (pyIsDigit_zfill2 hd2) c hc))
      · exact fixedPath (by
          simp only [normBody, if_neg hdash, hm, if_neg hd2])

end PCP

namespace PCP

/-- List-level idempotence of the normalizer, conditional on the
output not beginning with whitespace. -/
theorem normRefL_idem {l : List Char} (h : noLeadWS (normRefL l)) :
    normRefL (normRefL l) = normRefL l := by
  by_cases hl : l = []
  · subst hl; rfl
  · have he : normRefL l = normBody (strip (upper l)) := by
      simp only [normRefL, if_neg hl]
    rw [he] at h ⊢
    exact normBody_roundtrip (upFixed_strip_upper l) (strip_idem _) h

end PCP

/-- C3 counterexample: norm_ref is not idempotent on every string.
On "_ A.B.1" the first pass yields " A.B-01" (the leading underscore
becomes a dot, so the first nonempty dot-segment keeps its leading
space and the numeric-tail rewrite emits it verbatim), and the second
pass strips that space, yielding "A.B-01". -/
theorem c3_norm_ref_idempotent_counterexample :
    PCP.norm_ref (PCP.norm_ref "_ A.B.1") ≠ PCP.norm_ref "_ A.B.1" := by
  decide

/-- C3 amended: norm_ref is idempotent on every string whose
normalized form does not begin with a whitespace character (leading
whitespace can only arise via the no-hyphen numeric rewrite, as in the
counterexample). -/
theorem c3_norm_ref_idempotent_amended :
    ∀ s : String, PCP.noLeadWS (PCP.norm_ref s).data →
      PCP.norm_ref (PCP.norm_ref s) = PCP.norm_ref s := by
  intro s h
  show String.mk (PCP.normRefL (String.mk (PCP.normRefL s.data)).data) =
    String.mk (PCP.normRefL s.data)
  exact congrArg String.mk (PCP.normRefL_idem h)

/-- C3 witness: a normalized reference with a clean head round-trips. -/
theorem c3_norm_ref_idempotent_witness :
    PCP.norm_ref (PCP.norm_ref "pr_ps_01") = PCP.norm_ref "pr_ps_01" :=
  c3_norm_ref_idempotent_amended "pr_ps_01"
    (by show ('P' : Char).isWhitespace = false; decide)

namespace PCP

/-- Reading a heap extended by one binding. -/
theorem hfind_cons (mem : List (Nat × HNode)) (nx b : Nat) (node : HNode) (a : Nat) :
    hfind ⟨(b, node) :: mem, nx⟩ a =
      if b = a then some node else hfind ⟨mem, nx⟩ a := by
  unfold hfind
  rw [List.find?_cons]
  by_cases hba : b = a
  · simp [hba]
  · have hf : (b == a) = false := by simp [hba]
    rw [hf, if_neg hba]

/-- hfind does not depend on the free pointer. -/
theorem hfind_next_irrel (mem : List (Nat × HNode)) (nx nx2 a : Nat) :
    hfind ⟨mem, nx⟩ a = hfind ⟨mem, nx2⟩ a := rfl

theorem evolvesN_refl {n : Nat} {h : Heap} (hwf : wfHi h) : evolvesN n h h :=
  ⟨le_rfl, fun _ _ => rfl, hwf⟩

theorem evolvesN_trans {n : Nat} {h h2 h3 : Heap}
    (e1 : evolvesN n h h2) (e2 : evolvesN n h2 h3) : evolvesN n h h3 :=
  ⟨e1.1.trans e2.1, fun a ha => (e2.2.1 a ha).trans (e1.2.1 a ha), e2.2.2⟩

/-- Allocation: reads below the old free pointer are unchanged. -/
theorem halloc_evolves {n : Nat} {h : Heap} (node : HNode)
    (hn : n ≤ h.next) (hwf : wfHi h) : evolvesN n h (halloc h node).1 := by
  refine ⟨by simp [halloc], ?_, ?_⟩
  · intro a ha
    show hfind ⟨(h.next, node) :: h.mem, h.next + 1⟩ a = hfind h a
    rw [hfind_cons, if_neg (by omega)]
    exact rfl
  · intro a ha
    have ha' : h.next + 1 ≤ a := ha
    show hfind ⟨(h.next, node) :: h.mem, h.next + 1⟩ a = none
    rw [hfind_cons, if_neg (by omega)]
    exact hwf a (by omega)

/-- The allocated address. -/
theorem halloc_val (h : Heap) (node : HNode) :
    (halloc h node).2 = .ref h.next := rfl

/-- Reading the freshly allocated address. -/
theorem hfind_halloc_self (h : Heap) (node : HNode) :
    hfind (halloc h node).1 h.next = some node := by
  show hfind ⟨(h.next, node) :: h.mem, h.next + 1⟩ h.next = some node
  rw [hfind_cons, if_pos rfl]

/-- Reading any other address in the extended heap. -/
theorem hfind_halloc_ne (h : Heap) (node : HNode) {a : Nat} (ha : a ≠ h.next) :
    hfind (halloc h node).1 a = hfind h a := by
  show hfind ⟨(h.next, node) :: h.mem, h.next + 1⟩ a = hfind h a
  rw [hfind_cons, if_neg (fun hh => ha hh.symm)]
  exact rfl

/-- In-place update of an existing address: reads below n (which the
address is not) are unchanged, and well-formedness is kept. -/
theorem hset_evolves {n : Nat} {h : Heap} {a0 : Nat} (node : HNode)
    (hn : n ≤ h.next) (hwf : wfHi h) (ha0n : n ≤ a0) (ha0 : a0 < h.next) :
    evolvesN n h (hset h a0 node) := by
  refine ⟨le_rfl, ?_, ?_⟩
  · intro a ha
    show hfind ⟨(a0, node) :: h.mem, h.next⟩ a = hfind h a
    rw [hfind_cons, if_neg (by omega)]
  · intro a ha
    have ha' : h.next ≤ a := ha
    show hfind ⟨(a0, node) :: h.mem, h.next⟩ a = none
    rw [hfind_cons, if_neg (by omega)]
    exact hwf a ha'

/-- The pop mutation touches only the (fresh) row address. -/
theorem hpop_evolves {n : Nat} {h : Heap} {v : HVal}
    (hn : n ≤ h.next) (hwf : wfHi h) (hv : refGE n v) :
    evolvesN n h (hpop h v) := by
  cases v with
  | atom a => exact evolvesN_refl hwf
  | ref a0 =>
    cases hf : hfind h a0 with
    | none =>
      have he : hpop h (.ref a0) = h := by simp only [hpop, hf]
      rw [he]
      exact evolvesN_refl hwf
    | some node =>
      cases node with
      | nlist xs =>
        have he : hpop h (.ref a0) = h := by simp only [hpop, hf]
        rw [he]
        exact evolvesN_refl hwf
      | ndict kvs =>
        have he : hpop h (.ref a0)
            = hset h a0 (.ndict (kvs.eraseP (fun p => p.1 == "Category"))) := by
          simp only [hpop, hf]
        have ha0 : a0 < h.next := by
          by_contra hc
          rw [hwf a0 (by omega)] at hf
          cases hf
        rw [he]
        exact hset_evolves _ hn hwf (hv a0 rfl) ha0

/-- Folding pop over rows pointing at or above n. -/
theorem popFold_evolves {n : Nat} :
    ∀ (rows : List HVal) (h : Heap), n ≤ h.next → wfHi h →
      (∀ v ∈ rows, refGE n v) → evolvesN n h (rows.foldl hpop h) := by
  intro rows
  induction rows with
  | nil => intro h hn hwf _; exact evolvesN_refl hwf
  | cons v rows ih =>
    intro h hn hwf hrefs
    rw [List.foldl_cons]
    have e1 := hpop_evolves hn hwf (hrefs v (List.mem_cons_self v rows))
    have hn1 : n ≤ (hpop h v).next := hn.trans e1.1
    exact evolvesN_trans e1
      (ih (hpop h v) hn1 e1.2.2 (fun w hw => hrefs w (List.mem_cons_of_mem v hw)))

/-- nodeRefsGE weakens to smaller bounds. -/
theorem nodeRefsGE_mono {m m2 : Nat} (hle : m ≤ m2) :
    ∀ {node : HNode}, nodeRefsGE m2 node → nodeRefsGE m node := by
  intro node hn
  cases node with
  | ndict kvs => exact fun p hp a ha => hle.trans (hn p hp a ha)
  | nlist xs => exact fun v hv a ha => hle.trans (hn v hv a ha)

/-- refGE weakens to smaller bounds. -/
theorem refGE_mono {m m2 : Nat} (hle : m ≤ m2) {v : HVal}
    (hv : refGE m2 v) : refGE m v :=
  fun a ha => hle.trans (hv a ha)

end PCP

namespace PCP

/-- evolvesN weakens to smaller preserved regions. -/
theorem evolvesN_weaken {n m : Nat} {h h2 : Heap} (hle : n ≤ m)
    (e : evolvesN m h h2) : evolvesN n h h2 :=
  ⟨e.1, fun a ha => e.2.1 a (lt_of_lt_of_le ha hle), e.2.2⟩

theorem allocStep_refl {h : Heap} (hwf : wfHi h) : allocStep h h := by
  refine ⟨evolvesN_refl hwf, ?_⟩
  intro a node ha hf
  rw [hwf a ha] at hf
  cases hf

theorem allocStep_trans {h h2 h3 : Heap}
    (e1 : allocStep h h2) (e2 : allocStep h2 h3) : allocStep h h3 := by
  refine ⟨evolvesN_trans e1.1 (evolvesN_weaken e1.1.1 e2.1), ?_⟩
  intro a node ha hf
  by_cases hlt : a < h2.next
  · exact e1.2 a node ha (by rw [e2.1.2.1 a hlt] at hf; exact hf)
  · exact nodeRefsGE_mono e1.1.1 (e2.2 a node (by omega) hf)

/-- Allocating a node whose references are fresh is an allocStep. -/
theorem halloc_allocStep {h : Heap} {node : HNode}
    (hwf : wfHi h) (hnode : nodeRefsGE h.next node) :
    allocStep h (halloc h node).1 := by
  refine ⟨halloc_evolves node le_rfl hwf, ?_⟩
  intro a nd ha hf
  by_cases hae : a = h.next
  · subst hae
    rw [hfind_halloc_self] at hf
    cases hf
    exact hnode
  · rw [hfind_halloc_ne h node hae, hwf a (by omega)] at hf
    cases hf

end PCP

namespace PCP

/-- Extending an allocStep by one more allocation whose node only
references addresses fresh relative to the base heap. -/
theorem halloc_allocStep_from {h0 h : Heap} {node : HNode}
    (hbase : allocStep h0 h) (hnode : nodeRefsGE h0.next node) :
    allocStep h0 (halloc h node).1 := by
  have hwf : wfHi h := hbase.1.2.2
  refine ⟨evolvesN_trans hbase.1 (evolvesN_weaken hbase.1.1 (halloc_evolves node le_rfl hwf)), ?_⟩
  intro a nd ha hf
  by_cases hae : a = h.next
  · subst hae
    rw [hfind_halloc_self] at hf
    cases hf
    exact hnode
  · by_cases hlt : a < h.next
    · exact hbase.2 a nd ha (by rw [hfind_halloc_ne h node hae] at hf; exact hf)
    · rw [hfind_halloc_ne h node hae, hwf a (by omega)] at hf
      cases hf

end PCP

namespace PCP

mutual

/-- Allocating a parsed tree never touches existing objects, the fresh
objects only reference fresh addresses, and the result points into the
fresh region. -/
theorem allocVal_spec : ∀ (t : PyVal) (h : Heap), wfHi h →
    allocStep h (allocVal h t).1 ∧ refGE h.next (allocVal h t).2
  | .vnone, _, hwf => ⟨allocStep_refl hwf, fun _ ha => nomatch ha⟩
  | .vbool _, _, hwf => ⟨allocStep_refl hwf, fun _ ha => nomatch ha⟩
  | .vnum _, _, hwf => ⟨allocStep_refl hwf, fun _ ha => nomatch ha⟩
  | .vstr _, _, hwf => ⟨allocStep_refl hwf, fun _ ha => nomatch ha⟩
  | .vlist xs, h, hwf => by
    have hl := allocList_spec xs h hwf
    cases hA : allocList h xs with
    | mk h1 vs =>
      rw [hA] at hl
      have he : allocVal h (.vlist xs) = halloc h1 (.nlist vs) := by
        simp only [allocVal, hA]
      rw [he]
      refine ⟨halloc_allocStep_from hl.1 (fun v hv => hl.2 v hv), ?_⟩
      intro a ha
      cases ha
      exact hl.1.1.1
  | .vdict kvs, h, hwf => by
    have hl := allocPairs_spec kvs h hwf
    cases hA : allocPairs h kvs with
    | mk h1 kvs2 =>
      rw [hA] at hl
      have he : allocVal h (.vdict kvs) = halloc h1 (.ndict kvs2) := by
        simp only [allocVal, hA]
      rw [he]
      refine ⟨halloc_allocStep_from hl.1 (fun p hp => hl.2 p hp), ?_⟩
      intro a ha
      cases ha
      exact hl.1.1.1

/-- Allocating a list of trees: same guarantees, elementwise. -/
theorem allocList_spec : ∀ (xs : List PyVal) (h : Heap), wfHi h →
    allocStep h (allocList h xs).1 ∧ ∀ v ∈ (allocList h xs).2, refGE h.next v
  | [], _, hwf => ⟨allocStep_refl hwf, fun _ hv => nomatch hv⟩
  | x :: xs, h, hwf => by
    have hv := allocVal_spec x h hwf
    cases hA : allocVal h x with
    | mk h1 v =>
      rw [hA] at hv
      have hl := allocList_spec xs h1 hv.1.1.2.2
      cases hB : allocList h1 xs with
      | mk h2 vs =>
        rw [hB] at hl
        have he : allocList h (x :: xs) = (h2, v :: vs) := by
          simp only [allocList, hA, hB]
        rw [he]
        refine ⟨allocStep_trans hv.1 hl.1, ?_⟩
        intro w hw
        cases hw with
        | head => exact hv.2
        | tail _ hw => exact refGE_mono hv.1.1.1 (hl.2 w hw)

/-- Allocating dict entries: same guarantees, valuewise. -/
theorem allocPairs_spec : ∀ (kvs : List (String × PyVal)) (h : Heap), wfHi h →
    allocStep h (allocPairs h kvs).1 ∧ ∀ p ∈ (allocPairs h kvs).2, refGE h.next p.2
  | [], _, hwf => ⟨allocStep_refl hwf, fun _ hv => nomatch hv⟩
  | (k, x) :: rest, h, hwf => by
    have hv := allocVal_spec x h hwf
    cases hA : allocVal h x with
    | mk h1 v =>
      rw [hA] at hv
      have hl := allocPairs_spec rest h1 hv.1.1.2.2
      cases hB : allocPairs h1 rest with
      | mk h2 vs =>
        rw [hB] at hl
        have he : allocPairs h ((k, x) :: rest) = (h2, (k, v) :: vs) := by
          simp only [allocPairs, hA, hB]
        rw [he]
        refine ⟨allocStep_trans hv.1 hl.1, ?_⟩
        intro p hp
        cases hp with
        | head => exact hv.2
        | tail _ hp => exact refGE_mono hv.1.1.1 (hl.2 p hp)

end

end PCP

namespace PCP

mutual

/-- _strip_transport only reads its input and allocates fresh copies:
every pre-existing object is unchanged. -/
theorem hstrip_grows : ∀ (fuel : Nat) (v : HVal) (h : Heap), wfHi h →
    evolvesN h.next h (hstrip fuel h v).1
  | 0, v, h, hwf => by
    have he : hstrip 0 h v = (h, v) := by simp only [hstrip]
    rw [he]
    exact evolvesN_refl hwf
  | fuel + 1, .atom a, h, hwf => by
    have he : hstrip (fuel + 1) h (.atom a) = (h, .atom a) := by
      simp only [hstrip]
    rw [he]
    exact evolvesN_refl hwf
  | fuel + 1, .ref a, h, hwf => by
    cases hf : hfind h a with
    | none =>
      have he : hstrip (fuel + 1) h (.ref a) = (h, .ref a) := by
        simp only [hstrip, hf]
      rw [he]
      exact evolvesN_refl hwf
    | some node =>
      cases node with
      | ndict kvs =>
        have hp := hstripPairs_grows fuel kvs h hwf
        cases hA : hstripPairs fuel h kvs with
        | mk h1 kvs2 =>
          rw [hA] at hp
          have he : hstrip (fuel + 1) h (.ref a) = halloc h1 (.ndict kvs2) := by
            simp only [hstrip, hf, hA]
          rw [he]
          exact evolvesN_trans hp
            (evolvesN_weaken hp.1 (halloc_evolves _ le_rfl hp.2.2))
      | nlist xs =>
        have hp := hstripList_grows fuel xs h hwf
        cases hA : hstripList fuel h xs with
        | mk h1 xs2 =>
          rw [hA] at hp
          have he : hstrip (fuel + 1) h (.ref a) = halloc h1 (.nlist xs2) := by
            simp only [hstrip, hf, hA]
          rw [he]
          exact evolvesN_trans hp
            (evolvesN_weaken hp.1 (halloc_evolves _ le_rfl hp.2.2))

/-- _strip_transport over a list of values: existing objects unchanged. -/
theorem hstripList_grows : ∀ (fuel : Nat) (xs : List HVal) (h : Heap), wfHi h →
    evolvesN h.next h (hstripList fuel h xs).1
  | fuel, [], h, hwf => by
    have he : hstripList fuel h [] = (h, []) := by simp only [hstripList]
    rw [he]
    exact evolvesN_refl hwf
  | fuel, x :: xs, h, hwf => by
    have hv := hstrip_grows fuel x h hwf
    cases hA : hstrip fuel h x with
    | mk h1 v =>
      rw [hA] at hv
      have hl := hstripList_grows fuel xs h1 hv.2.2
      cases hB : hstripList fuel h1 xs with
      | mk h2 vs =>
        rw [hB] at hl
        have he : hstripList fuel h (x :: xs) = (h2, v :: vs) := by
          simp only [hstripList, hA, hB]
        rw [he]
        exact evolvesN_trans hv (evolvesN_weaken hv.1 hl)

/-- _strip_transport over dict entries: existing objects unchanged. -/
theorem hstripPairs_grows : ∀ (fuel : Nat) (kvs : List (String × HVal)) (h : Heap),
    wfHi h → evolvesN h.next h (hstripPairs fuel h kvs).1
  | fuel, [], h, hwf => by
    have he : hstripPairs fuel h [] = (h, []) := by simp only [hstripPairs]
    rw [he]
    exact evolvesN_refl hwf
  | fuel, (k, v) :: rest, h, hwf => by
    by_cases hk : pyLowerS k ∈ TRANSPORT_KEYS
    · have he : hstripPairs fuel h ((k, v) :: rest) = hstripPairs fuel h rest := by
        simp only [hstripPairs, if_pos hk]
      rw [he]
      exact hstripPairs_grows fuel rest h hwf
    · have hv := hstrip_grows fuel v h hwf
      cases hA : hstrip fuel h v with
      | mk h1 v2 =>
        rw [hA] at hv
        have hl := hstripPairs_grows fuel rest h1 hv.2.2
        cases hB : hstripPairs fuel h1 rest with
        | mk h2 rest2 =>
          rw [hB] at hl
          have he : hstripPairs fuel h ((k, v) :: rest)
              = (h2, (k, v2) :: rest2) := by
            simp only [hstripPairs, if_neg hk, hA, hB]
          rw [he]
          exact evolvesN_trans hv (evolvesN_weaken hv.1 hl)

end

end PCP

namespace PCP

/-- A dict lookup on a value in the fresh region yields a value in the
fresh region. -/
theorem hgetD_refGE {m : Nat} {h : Heap} {v : HVal} (k : String)
    (hcl : ∀ a node, m ≤ a → hfind h a = some node → nodeRefsGE m node)
    (hv : refGE m v) : refGE m (hgetD h v k) := by
  intro b hb
  cases v with
  | atom a =>
    rw [show hgetD h (.atom a) k = .atom .anone from rfl] at hb
    cases hb
  | ref a =>
    cases hf : hfind h a with
    | none =>
      rw [show hgetD h (.ref a) k = .atom .anone from by simp only [hgetD, hf]] at hb
      cases hb
    | some node =>
      cases node with
      | nlist xs =>
        rw [show hgetD h (.ref a) k = .atom .anone from by simp only [hgetD, hf]] at hb
        cases hb
      | ndict kvs =>
        cases hk : kvs.find? (fun p => p.1 == k) with
        | none =>
          rw [show hgetD h (.ref a) k = .atom .anone from by
            simp only [hgetD, hf, hk]] at hb
          cases hb
        | some p =>
          rw [show hgetD h (.ref a) k = p.2 from by simp only [hgetD, hf, hk]] at hb
          exact hcl a (.ndict kvs) (hv a rfl) hf p (List.mem_of_find?_eq_some hk) b hb

/-- The elements of a list value in the fresh region are in the fresh
region. -/
theorem helems_refGE {m : Nat} {h : Heap} {v : HVal}
    (hcl : ∀ a node, m ≤ a → hfind h a = some node → nodeRefsGE m node)
    (hv : refGE m v) : ∀ w ∈ helems h v, refGE m w := by
  intro w hw
  cases v with
  | atom a =>
    rw [show helems h (.atom a) = [] from rfl] at hw
    cases hw
  | ref a =>
    cases hf : hfind h a with
    | none =>
      rw [show helems h (.ref a) = [] from by simp only [helems, hf]] at hw
      cases hw
    | some node =>
      cases node with
      | ndict kvs =>
        rw [show helems h (.ref a) = [] from by simp only [helems, hf]] at hw
        cases hw
      | nlist xs =>
        rw [show helems h (.ref a) = xs from by simp only [helems, hf]] at hw
        exact hcl a (.nlist xs) (hv a rfl) hf w hw

/-- Python or keeps refGE. -/
theorem hOr_refGE {m : Nat} {h : Heap} {a b : HVal}
    (ha : refGE m a) (hb : refGE m b) : refGE m (hOr h a b) := by
  unfold hOr
  split
  · exact ha
  · exact hb

/-- All rows extracted from a freshly allocated findings payload point
into the fresh region. -/
theorem findingRowsH_refGE {m : Nat} {h : Heap} {raw : HVal}
    (hcl : ∀ a node, m ≤ a → hfind h a = some node → nodeRefsGE m node)
    (hraw : refGE m raw) : ∀ v ∈ findingRowsH h raw, refGE m v := by
  intro v hv
  cases raw with
  | atom a =>
    rw [show findingRowsH h (.atom a) = [] from rfl] at hv
    cases hv
  | ref a =>
    cases hf : hfind h a with
    | none =>
      rw [show findingRowsH h (.ref a) = [] from by simp only [findingRowsH, hf]] at hv
      cases hv
    | some node =>
      cases node with
      | nlist xs =>
        rw [show findingRowsH h (.ref a) = xs from by simp only [findingRowsH, hf]] at hv
        exact hcl a (.nlist xs) (hraw a rfl) hf v hv
      | ndict kvs =>
        by_cases hl : hIsList h (hgetD h (.ref a) "findings") = true
        · rw [show findingRowsH h (.ref a) = helems h (hgetD h (.ref a) "findings") from by
            simp only [findingRowsH, hf]
            rw [if_pos hl]] at hv
          exact helems_refGE hcl (hgetD_refGE "findings" hcl hraw) v hv
        · by_cases hemp : kvs.isEmpty = true
          · rw [show findingRowsH h (.ref a) = [] from by
              simp only [findingRowsH, hf]
              rw [if_neg hl, if_pos hemp]] at hv
            cases hv
          · rw [show findingRowsH h (.ref a) = [.ref a] from by
              simp only [findingRowsH, hf]
              rw [if_neg hl, if_neg hemp]] at hv
            cases hv with
            | head => exact hraw
            | tail _ hv => cases hv

end PCP

namespace PCP

/-- The row coercion of step 3 at most allocates the fallback dict. -/
theorem catRowEnsureDict_evolves {n : Nat} {h : Heap} (row : HVal) (cat : String)
    (hn : n ≤ h.next) (hwf : wfHi h) :
    evolvesN n h (catRowEnsureDict h row cat).1 := by
  unfold catRowEnsureDict
  split
  · exact evolvesN_refl hwf
  · exact evolvesN_weaken hn (halloc_evolves _ le_rfl hwf)

/-- Building one category row only reads and allocates. -/
theorem catRowH_evolves {n : Nat} {h : Heap} (payload : HVal) (cat : String)
    (hn : n ≤ h.next) (hwf : wfHi h) :
    evolvesN n h (catRowH h payload cat).1 := by
  cases hE : catRowEnsureDict h (catRowResolve h payload) cat with
  | mk h1 row1 =>
    have e1 : evolvesN n h h1 := by
      have he := catRowEnsureDict_evolves (catRowResolve h payload) cat hn hwf
      rw [hE] at he
      exact he
    have he : catRowH h payload cat = halloc h1 (catRowFields h1 row1 cat) := by
      simp only [catRowH, hE]
    rw [he]
    exact evolvesN_trans e1
      (evolvesN_weaken (hn.trans e1.1) (halloc_evolves _ le_rfl e1.2.2))

/-- The category loop of step 3 only reads and allocates. -/
theorem catLoopH_evolves {n : Nat} (api : HApi) (cid : HVal) :
    ∀ (cats : List String) (h : Heap), n ≤ h.next → wfHi h →
      evolvesN n h (catLoopH api cid h cats).1
  | [], h, hn, hwf => by
    have he : catLoopH api cid h [] = (h, .ok []) := by simp only [catLoopH]
    rw [he]
    exact evolvesN_refl hwf
  | cat :: cats, h, hn, hwf => by
    cases hg : api.get_category_gpa cid cat with
    | error e =>
      have he : catLoopH api cid h (cat :: cats) = (h, .error .fetch) := by
        simp only [catLoopH, hg]
      rw [he]
      exact evolvesN_refl hwf
    | ok tree =>
      have hv := allocVal_spec tree h hwf
      cases hA : allocVal h tree with
      | mk h1 payload =>
        rw [hA] at hv
        have e1 : evolvesN n h h1 := evolvesN_weaken hn hv.1.1
        cases hB : catRowH h1 payload cat with
        | mk h2 row =>
          have e2 : evolvesN n h1 h2 := by
            have he := catRowH_evolves payload cat (hn.trans e1.1) hv.1.1.2.2
            rw [hB] at he
            exact he
          cases hC : catLoopH api cid h2 cats with
          | mk h3 res =>
            have e3 : evolvesN n h2 h3 := by
              have he := catLoopH_evolves api cid cats h2
                ((hn.trans e1.1).trans e2.1) e2.2.2
              rw [hC] at he
              exact he
            have eall : evolvesN n h h3 :=
              evolvesN_trans e1 (evolvesN_trans e2 e3)
            cases res with
            | error e =>
              have he : catLoopH api cid h (cat :: cats) = (h3, .error e) := by
                simp only [catLoopH, hg, hA, hB, hC]
              rw [he]
              exact eall
            | ok rest =>
              have he : catLoopH api cid h (cat :: cats) = (h3, .ok (row :: rest)) := by
                simp only [catLoopH, hg, hA, hB, hC]
              rw [he]
              exact eall

/-- Unfolding the per-category finding-list allocation one step. -/
theorem allocFbc_cons_eq (h : Heap) (k : String) (rows : List HVal)
    (rest : List (String × List HVal)) :
    allocFbc h ((k, rows) :: rest)
      = ((allocFbc (halloc h (.nlist rows)).1 rest).1,
         (k, (halloc h (.nlist rows)).2)
           :: (allocFbc (halloc h (.nlist rows)).1 rest).2) := rfl

end PCP

namespace PCP

/-- The findings loop of step 5: it fetches, allocates, pops Category
keys on the freshly fetched rows only, and strips into fresh copies;
every pre-existing object is unchanged. -/
theorem findingsLoopH_evolves {n : Nat} (api : HApi) (fuel : Nat) (did : HVal) :
    ∀ (cats : List String) (h : Heap), n ≤ h.next → wfHi h →
      evolvesN n h (findingsLoopH api fuel did h cats).1
  | [], h, hn, hwf => by
    have he : findingsLoopH api fuel did h [] = (h, .ok []) := by
      simp only [findingsLoopH]
    rw [he]
    exact evolvesN_refl hwf
  | cat :: cats, h, hn, hwf => by
    cases hg : api.get_findings_by_category did cat with
    | error e =>
      have he : findingsLoopH api fuel did h (cat :: cats) = (h, .error .fetch) := by
        simp only [findingsLoopH, hg]
      rw [he]
      exact evolvesN_refl hwf
    | ok tree =>
      have hv := allocVal_spec tree h hwf
      cases hA : allocVal h tree with
      | mk h1 raw =>
        rw [hA] at hv
        have e1 : evolvesN n h h1 := evolvesN_weaken hn hv.1.1
        have hrows : ∀ v ∈ (findingRowsH h1 raw).filter (hIsDict h1), refGE n v := by
          intro v hvmem
          exact refGE_mono hn
            (findingRowsH_refGE hv.1.2 hv.2 v (List.mem_of_mem_filter hvmem))
        have e2 : evolvesN n h1
            (((findingRowsH h1 raw).filter (hIsDict h1)).foldl hpop h1) :=
          popFold_evolves _ h1 (hn.trans hv.1.1.1) hv.1.1.2.2 hrows
        cases hB : hstripList fuel
            (((findingRowsH h1 raw).filter (hIsDict h1)).foldl hpop h1)
            ((findingRowsH h1 raw).filter (hIsDict h1)) with
        | mk h3 rows2 =>
          have e3 : evolvesN n
              (((findingRowsH h1 raw).filter (hIsDict h1)).foldl hpop h1) h3 := by
            have he := hstripList_grows fuel
              ((findingRowsH h1 raw).filter (hIsDict h1))
              (((findingRowsH h1 raw).filter (hIsDict h1)).foldl hpop h1) e2.2.2
            rw [hB] at he
            exact evolvesN_weaken ((hn.trans hv.1.1.1).trans e2.1) he
          cases hC : findingsLoopH api fuel did h3 cats with
          | mk h4 res =>
            have e4 : evolvesN n h3 h4 := by
              have he := findingsLoopH_evolves api fuel did cats h3
                (((hn.trans hv.1.1.1).trans e2.1).trans e3.1) e3.2.2
              rw [hC] at he
              exact he
            have eall : evolvesN n h h4 :=
              evolvesN_trans e1 (evolvesN_trans e2 (evolvesN_trans e3 e4))
            cases res with
            | error e =>
              have he : findingsLoopH api fuel did h (cat :: cats)
                  = (h4, .error e) := by
                simp only [findingsLoopH, hg, hA, hB, hC]
              rw [he]
              exact eall
            | ok rest =>
              have he : findingsLoopH api fuel did h (cat :: cats)
                  = (h4, .ok ((cat, rows2) :: rest)) := by
                simp only [findingsLoopH, hg, hA, hB, hC]
              rw [he]
              exact eall

/-- Allocating the per-category finding lists only allocates. -/
theorem allocFbc_evolves {n : Nat} :
    ∀ (fbc : List (String × List HVal)) (h : Heap), n ≤ h.next → wfHi h →
      evolvesN n h (allocFbc h fbc).1
  | [], h, _, hwf => by
    have he : allocFbc h [] = (h, []) := by simp only [allocFbc]
    rw [he]
    exact evolvesN_refl hwf
  | (k, rows) :: rest, h, hn, hwf => by
    rw [allocFbc_cons_eq]
    have e1 : evolvesN n h (halloc h (.nlist rows)).1 :=
      evolvesN_weaken hn (halloc_evolves _ le_rfl hwf)
    exact evolvesN_trans e1
      (allocFbc_evolves rest (halloc h (.nlist rows)).1 (hn.trans e1.1) e1.2.2)

/-- The shared per-domain tail: the findings loop plus three fresh
allocations. -/
theorem domainRowAssemble_evolves {n : Nat} (api : HApi) (fuel : Nat)
    (did dname dscore : HVal) (h : Heap) (hn : n ≤ h.next) (hwf : wfHi h) :
    evolvesN n h (domainRowAssemble api fuel h did dname dscore).1 := by
  cases hL : findingsLoopH api fuel did h CATEGORY_NAMES with
  | mk h1 res =>
    have e1 : evolvesN n h h1 := by
      have he := findingsLoopH_evolves api fuel did CATEGORY_NAMES h hn hwf
      rw [hL] at he
      exact he
    cases res with
    | error e =>
      have he : domainRowAssemble api fuel h did dname dscore = (h1, .error e) := by
        simp only [domainRowAssemble, hL]
      rw [he]
      exact e1
    | ok fbc =>
      cases hF : allocFbc h1 fbc with
      | mk h2 lrefs =>
        have e2 : evolvesN n h1 h2 := by
          have he := allocFbc_evolves fbc h1 (hn.trans e1.1) e1.2.2
          rw [hF] at he
          exact he
        have he : domainRowAssemble api fuel h did dname dscore
            = ((halloc (halloc h2 (.ndict lrefs)).1
                (.ndict [("domain_id", did), ("domain_name", dname),
                  ("domain_score", dscore),
                  ("findings_by_category", (halloc h2 (.ndict lrefs)).2)])).1,
               .ok (halloc (halloc h2 (.ndict lrefs)).1
                (.ndict [("domain_id", did), ("domain_name", dname),
                  ("domain_score", dscore),
                  ("findings_by_category", (halloc h2 (.ndict lrefs)).2)])).2) := by
          simp only [domainRowAssemble, hL, hF]
        rw [he]
        have e3 : evolvesN n h2 (halloc h2 (.ndict lrefs)).1 :=
          evolvesN_weaken ((hn.trans e1.1).trans e2.1)
            (halloc_evolves _ le_rfl e2.2.2)
        have e4 : evolvesN n (halloc h2 (.ndict lrefs)).1
            (halloc (halloc h2 (.ndict lrefs)).1
              (.ndict [("domain_id", did), ("domain_name", dname),
                ("domain_score", dscore),
                ("findings_by_category", (halloc h2 (.ndict lrefs)).2)])).1 :=
          evolvesN_weaken (((hn.trans e1.1).trans e2.1).trans e3.1)
            (halloc_evolves _ le_rfl e3.2.2)
        exact evolvesN_trans e1 (evolvesN_trans e2 (evolvesN_trans e3 e4))

end PCP

namespace PCP

/-- Building one domain row only reads, fetches, allocates, and pops
fresh rows. -/
theorem domainRowH_evolves {n : Nat} (api : HApi) (fuel : Nat) (d : HVal)
    (h : Heap) (hn : n ≤ h.next) (hwf : wfHi h) :
    evolvesN n h (domainRowH api fuel h d).1 := by
  cases hg : api.get_domain_score
      (hOr h (hgetD h d "domain_id")
        (hOr h (hgetD h d "id") (hgetD h d "domainId"))) with
  | error e =>
    have he : domainRowH api fuel h d
        = domainRowAssemble api fuel h
            (hOr h (hgetD h d "domain_id")
              (hOr h (hgetD h d "id") (hgetD h d "domainId")))
            (hOr h (hgetD h d "domain_name")
              (hOr h (hgetD h d "domain") (hgetD h d "name")))
            (.atom .anone) := by
      simp only [domainRowH, hg]
    rw [he]
    exact domainRowAssemble_evolves api fuel _ _ _ h hn hwf
  | ok tree =>
    cases hA : allocVal h tree with
    | mk h1 sv =>
      have hv := allocVal_spec tree h hwf
      rw [hA] at hv
      have he : domainRowH api fuel h d
          = domainRowAssemble api fuel h1
              (hOr h (hgetD h d "domain_id")
                (hOr h (hgetD h d "id") (hgetD h d "domainId")))
              (hOr h (hgetD h d "domain_name")
                (hOr h (hgetD h d "domain") (hgetD h d "name")))
              (if hIsNone sv then .atom .anone else
                match hfloat sv with
                | some q => .atom (.anum q)
                | none => .atom .anone) := by
        simp only [domainRowH, hg, hA]
      rw [he]
      exact evolvesN_trans (evolvesN_weaken hn hv.1.1)
        (domainRowAssemble_evolves api fuel _ _ _ h1 (hn.trans hv.1.1.1) hv.1.1.2.2)

/-- The domain loop only reads, fetches, allocates, and pops fresh
rows. -/
theorem domainsLoopH_evolves {n : Nat} (api : HApi) (fuel : Nat) :
    ∀ (ds : List HVal) (h : Heap), n ≤ h.next → wfHi h →
      evolvesN n h (domainsLoopH api fuel h ds).1
  | [], h, _, hwf => by
    have he : domainsLoopH api fuel h [] = (h, .ok []) := by
      simp only [domainsLoopH]
    rw [he]
    exact evolvesN_refl hwf
  | d :: ds, h, hn, hwf => by
    cases hR : domainRowH api fuel h d with
    | mk h1 res =>
      have e1 : evolvesN n h h1 := by
        have he := domainRowH_evolves api fuel d h hn hwf
        rw [hR] at he
        exact he
      cases res with
      | error e =>
        have he : domainsLoopH api fuel h (d :: ds) = (h1, .error e) := by
          simp only [domainsLoopH, hR]
        rw [he]
        exact e1
      | ok row =>
        cases hD : domainsLoopH api fuel h1 ds with
        | mk h2 res2 =>
          have e2 : evolvesN n h1 h2 := by
            have he := domainsLoopH_evolves api fuel ds h1 (hn.trans e1.1) e1.2.2
            rw [hD] at he
            exact he
          cases res2 with
          | error e =>
            have he : domainsLoopH api fuel h (d :: ds) = (h2, .error e) := by
              simp only [domainsLoopH, hR, hD]
            rw [he]
            exact evolvesN_trans e1 e2
          | ok rest =>
            have he : domainsLoopH api fuel h (d :: ds) = (h2, .ok (row :: rest)) := by
              simp only [domainsLoopH, hR, hD]
            rw [he]
            exact evolvesN_trans e1 e2

end PCP

namespace PCP

/-- The whole build: every object that existed before the call reads
back unchanged afterwards, whatever the api returns. -/
theorem buildH_evolves (api : HApi) (fuel : Nat) (now : String) (h : Heap)
    (company domains : Nat) (hwf : wfHi h) :
    evolvesN h.next h (buildH api fuel now h company domains).1 := by
  by_cases hid : hIsNone (hOr h (hgetD h (.ref company) "company_id")
      (hgetD h (.ref company) "id")) = true
  · have he : buildH api fuel now h company domains = (h, .error .missingId) := by
      simp only [buildH]
      rw [if_pos hid]
    rw [he]
    exact evolvesN_refl hwf
  · cases hS : hstrip fuel h (.ref company) with
    | mk h1 cclean =>
      have e1 : evolvesN h.next h h1 := by
        have he := hstrip_grows fuel (.ref company) h hwf
        rw [hS] at he
        exact he
      cases hg : api.get_company_risk_grade
          (hOr h (hgetD h (.ref company) "company_id")
            (hgetD h (.ref company) "id")) with
      | error e =>
        have he : buildH api fuel now h company domains = (h1, .error .fetch) := by
          simp only [buildH]
          rw [if_neg hid]
          simp only [hS, hg]
        rw [he]
        exact e1
      | ok tree =>
        cases hA : allocVal h1 tree with
        | mk h2 rgraw =>
          have hv := allocVal_spec tree h1 e1.2.2
          rw [hA] at hv
          have e2 : evolvesN h.next h1 h2 := evolvesN_weaken e1.1 hv.1.1
          cases hT : (if htruthy h2 rgraw then (h2, rgraw)
              else halloc h2 (.ndict [])) with
          | mk h3 rgval =>
            have e3 : evolvesN h.next h2 h3 := by
              by_cases ht : htruthy h2 rgraw = true
              · rw [if_pos ht] at hT
                injection hT with hT1 hT2
                rw [hT1] at hv ⊢
                exact evolvesN_refl hv.1.1.2.2
              · rw [if_neg ht] at hT
                have hT1 : _ = h3 := congrArg Prod.fst hT
                rw [← hT1]
                exact evolvesN_weaken (e1.1.trans e2.1)
                  (halloc_evolves _ le_rfl hv.1.1.2.2)
            cases hS2 : hstrip fuel h3 rgval with
            | mk h4 risk_grade =>
              have e4 : evolvesN h.next h3 h4 := by
                have he := hstrip_grows fuel rgval h3 e3.2.2
                rw [hS2] at he
                exact evolvesN_weaken ((e1.1.trans e2.1).trans e3.1) he
              have hn4 : h.next ≤ h4.next :=
                ((e1.1.trans e2.1).trans e3.1).trans e4.1
              cases hC : catLoopH api
                  (hOr h (hgetD h (.ref company) "company_id")
                    (hgetD h (.ref company) "id")) h4 CATEGORY_NAMES with
              | mk h5 res =>
                have e5 : evolvesN h.next h4 h5 := by
                  have he := catLoopH_evolves api
                    (hOr h (hgetD h (.ref company) "company_id")
                      (hgetD h (.ref company) "id")) CATEGORY_NAMES h4 hn4 e4.2.2
                  rw [hC] at he
                  exact he
                cases res with
                | error e =>
                  have he : buildH api fuel now h company domains
                      = (h5, .error e) := by
                    simp only [buildH]
                    rw [if_neg hid]
                    simp only [hS, hg, hA, hT, hS2, hC]
                  rw [he]
                  exact evolvesN_trans e1 (evolvesN_trans e2
                    (evolvesN_trans e3 (evolvesN_trans e4 e5)))
                | ok cats =>
                  cases hH6 : halloc h5 (.nlist cats) with
                  | mk h6 catsRef =>
                    have e6 : evolvesN h.next h5 h6 := by
                      have h6f : _ = h6 := congrArg Prod.fst hH6
                      rw [← h6f]
                      exact evolvesN_weaken (hn4.trans e5.1)
                        (halloc_evolves _ le_rfl e5.2.2)
                    cases hL : hstripList fuel h6
                        ((helems h6 (.ref domains)).filter
                          (fun d => hStr (dcidH h6 d)
                            == hStr (hOr h (hgetD h (.ref company) "company_id")
                              (hgetD h (.ref company) "id")))) with
                    | mk h7 dstripped =>
                      have e7 : evolvesN h.next h6 h7 := by
                        have he := hstripList_grows fuel
                          ((helems h6 (.ref domains)).filter
                            (fun d => hStr (dcidH h6 d)
                              == hStr (hOr h (hgetD h (.ref company) "company_id")
                                (hgetD h (.ref company) "id")))) h6 e6.2.2
                        rw [hL] at he
                        exact evolvesN_weaken ((hn4.trans e5.1).trans e6.1) he
                      have hn7 : h.next ≤ h7.next :=
                        (((hn4.trans e5.1).trans e6.1)).trans e7.1
                      cases hD : domainsLoopH api fuel h7 dstripped with
                      | mk h8 res2 =>
                        have e8 : evolvesN h.next h7 h8 := by
                          have he := domainsLoopH_evolves api fuel dstripped h7
                            hn7 e7.2.2
                          rw [hD] at he
                          exact he
                        have eall8 : evolvesN h.next h h8 :=
                          evolvesN_trans e1 (evolvesN_trans e2 (evolvesN_trans e3
                            (evolvesN_trans e4 (evolvesN_trans e5 (evolvesN_trans e6
                              (evolvesN_trans e7 e8))))))
                        cases res2 with
                        | error e =>
                          have he : buildH api fuel now h company domains
                              = (h8, .error e) := by
                            simp only [buildH]
                            rw [if_neg hid]
                            simp only [hS, hg, hA, hT, hS2, hC, hH6, hL, hD]
                          rw [he]
                          exact eall8
                        | ok rows =>
                          cases hH9 : halloc h8 (.nlist rows) with
                          | mk h9 domsRef =>
                            have e9 : evolvesN h.next h8 h9 := by
                              have h9f : _ = h9 := congrArg Prod.fst hH9
                              rw [← h9f]
                              exact evolvesN_weaken (hn7.trans e8.1)
                                (halloc_evolves _ le_rfl e8.2.2)
                            cases hH10 : halloc h9 (.ndict
                                [("schema_version", .atom (.anum 1)),
                                 ("generated_at", .atom (.astr now)),
                                 ("company_id",
                                   hOr h (hgetD h (.ref company) "company_id")
                                     (hgetD h (.ref company) "id")),
                                 ("company", cclean),
                                 ("risk_grade", risk_grade),
                                 ("categories", catsRef),
                                 ("domains", domsRef)]) with
                            | mk h10 bref =>
                              have e10 : evolvesN h.next h9 h10 := by
                                have h10f : _ = h10 := congrArg Prod.fst hH10
                                rw [← h10f]
                                exact evolvesN_weaken
                                  ((hn7.trans e8.1).trans e9.1)
                                  (halloc_evolves _ le_rfl e9.2.2)
                              have he : buildH api fuel now h company domains
                                  = (h10, .ok bref) := by
                                simp only [buildH]
                                rw [if_neg hid]
                                simp only [hS, hg, hA, hT, hS2, hC, hH6, hL, hD,
                                  hH9, hH10]
                              rw [he]
                              exact evolvesN_trans eall8
                                (evolvesN_trans e9 e10)

end PCP

namespace PCP

/-- A heap whose stored addresses all lie below the free pointer is
well-formed. -/
theorem wfHi_of_keysLt (h : Heap) (hk : ∀ p ∈ h.mem, p.1 < h.next) : wfHi h := by
  intro a ha
  unfold hfind
  cases hf : h.mem.find? (fun p => p.1 == a) with
  | none => rfl
  | some p =>
    have hpm := List.mem_of_find?_eq_some hf
    have hpe := List.find?_some hf
    have hp1 : p.1 = a := by simpa using hpe
    have := hk p hpm
    omega

end PCP

/-- C10: build_company_bundle never mutates its arguments: in the heap
embedding of the build, every object that exists before the call — in
particular the company dict and the all_domains list together with
every domain dict it contains — reads back unchanged after the call,
whatever the fetchers return; the only in-place write, r.pop("Category"),
hits rows freshly allocated during the build. -/
theorem c10_no_argument_mutation (api : PCP.HApi) (fuel : Nat) (now : String)
    (h : PCP.Heap) (company domains : Nat) (hwf : PCP.wfHi h)
    (hc : company < h.next) (hd : domains < h.next) :
    PCP.hfind (PCP.buildH api fuel now h company domains).1 company
      = PCP.hfind h company ∧
    PCP.hfind (PCP.buildH api fuel now h company domains).1 domains
      = PCP.hfind h domains ∧
    ∀ a, a < h.next →
      PCP.hfind (PCP.buildH api fuel now h company domains).1 a = PCP.hfind h a := by
  have he := PCP.buildH_evolves api fuel now h company domains hwf
  exact ⟨he.2.1 company hc, he.2.1 domains hd, he.2.1⟩

/-- C10 witness: on a concrete three-object caller heap and an api
whose fetchers all succeed, the company dict, the domain list and the
domain dict read back unchanged after the build. -/
theorem c10_no_argument_mutation_witness :
    PCP.hfind (PCP.buildH PCP.apiW10 9 "2024" PCP.hW10 0 1).1 0
      = PCP.hfind PCP.hW10 0 ∧
    PCP.hfind (PCP.buildH PCP.apiW10 9 "2024" PCP.hW10 0 1).1 1
      = PCP.hfind PCP.hW10 1 ∧
    PCP.hfind (PCP.buildH PCP.apiW10 9 "2024" PCP.hW10 0 1).1 2
      = PCP.hfind PCP.hW10 2 := by
  have hm := c10_no_argument_mutation PCP.apiW10 9 "2024" PCP.hW10 0 1
    (PCP.wfHi_of_keysLt PCP.hW10 (by decide)) (by decide) (by decide)
  exact ⟨hm.1, hm.2.1, hm.2.2 2 (by decide)⟩
